import Mathlib

/-!
Verification of the TDA dip-detection core.

This file gives a shallow embedding, in Lean 4, of the dip-detection core of
the repository (the batch detectors of `combined_detector_script.py`, the
streaming detectors of `combined_detector_stream.py`, and the Monte-Carlo
evaluation harness of `dip_detector_montecarlo.py` / `dipdetector.py`), and
proves or refutes the specification claims about that core.

Conventions of the embedding:
- Python floats are modelled as `ℚ` where the computation stays rational
  (smoothed-minima detector, period computer, match counting) so statements
  are decidable, and as `ℝ` where the source uses `exp`, `cos`, `sqrt` or
  medians of irrational values (template bank, correlation engine, robust
  z-scores, the Monte-Carlo detector).
- Python's `round` (banker's rounding, as applied by `int(round(...))`) is
  modelled by `pyRound`.
- numpy operations (`convolve`, `median`, edge padding, slicing with a
  negative stop) are modelled by like-named list functions below; numpy
  slicing `a[p:-p]` is empty when `p = 0`, and the model preserves this.
- Operations that numpy would raise on (indexing an empty array, `max` of an
  empty slice) are totalised with explicit defaults (`getD`, `max?.getD`);
  every claim proved here is insensitive to the value of those defaults, and
  each totalisation is noted at its definition.
-/

namespace TDA

/-! ## Generic helpers mirroring Python / numpy primitives -/

/-- Python's `round` to an integer: round half to even (banker's rounding),
as performed by `int(round(x))` in the source. -/
def pyRound {α : Type*} [LinearOrderedField α] [FloorRing α] (x : α) : ℤ :=
  let f := ⌊x⌋
  let r := x - f
  if r < 1 / 2 then f
  else if 1 / 2 < r then f + 1
  else if f % 2 = 0 then f else f + 1

/-- Append to a bounded deque (`collections.deque` with `maxlen = cap`):
append on the right, evicting from the left when over capacity. -/
def pushTrunc {α : Type*} (cap : ℕ) (l : List α) (v : α) : List α :=
  let l' := l ++ [v]
  if cap < l'.length then l'.drop (l'.length - cap) else l'

/-- Python slice `a[p:-p]`.  For `p = 0` this is `a[0:0] = []` (numpy/Python
semantics of a negative-zero stop), which the batch smoothing path hits when
the moving-average window rounds to a single sample. -/
def pyCenterSlice {α : Type*} (p : ℕ) (l : List α) : List α :=
  if p = 0 then [] else (l.take (l.length - p)).drop p

/-- Python slice `a[lo:hi]` with already-clamped bounds. -/
def pySlice {α : Type*} (lo hi : ℕ) (l : List α) : List α :=
  (l.take hi).drop lo

/-- Full discrete convolution, `np.convolve(a, b, mode='full')`:
entry `n` is `Σ_k a[k]·b[n-k]`. -/
def fullConv (a b : List ℚ) : List ℚ :=
  (List.range (a.length + b.length - 1)).map fun n =>
    (((List.range (n + 1)).map fun k => a.getD k 0 * b.getD (n - k) 0)).sum

/-- Same-mode convolution, `np.convolve(a, b, mode='same')`: the central
`max |a| |b|` entries of the full convolution. -/
def sameConv (a b : List ℚ) : List ℚ :=
  ((fullConv a b).drop ((min a.length b.length - 1) / 2)).take (max a.length b.length)

/-- Model of `np.linspace(a, b, n)` (endpoint included, `n = 1` gives `[a]`). -/
noncomputable def linspace (a b : ℝ) (n : ℕ) : List ℝ :=
  if n = 0 then []
  else if n = 1 then [a]
  else (List.range n).map fun i : ℕ => a + (i : ℝ) * (b - a) / ((n : ℝ) - 1)

/-- Model of `np.median`: sort, then average the two central entries (for odd
length the two coincide).  On the empty list this returns `0` where numpy
would return NaN; no claim below depends on that value. -/
noncomputable def npMedian (l : List ℝ) : ℝ :=
  let s := l.mergeSort fun a b => decide (a ≤ b)
  (s.getD ((l.length - 1) / 2) 0 + s.getD (l.length / 2) 0) / 2

/-- Mean of a list (`np.mean` / `.mean()`), `0` for the empty list. -/
noncomputable def listMean (l : List ℝ) : ℝ := l.sum / l.length

/-- Euclidean norm of a list (`np.linalg.norm`). -/
noncomputable def l2norm (l : List ℝ) : ℝ := Real.sqrt ((l.map fun v => v ^ 2).sum)

/-! ## Period/Speed computer (`combined_detector_script.py`,
`compute_periods_times`, lines 157-164) -/

/-- Model of `compute_periods_times(indices, times)`: for fewer than two
detections return three empty arrays; otherwise gather the detection times,
difference them (`np.diff`), and take elementwise reciprocals for speeds.
Out-of-range detection indices (which numpy would raise on) are totalised
with `getD _ 0`. -/
def compute_periods_times (indices : List ℕ) (times : List ℚ) :
    List ℚ × List ℚ × List ℚ :=
  if indices.length < 2 then ([], [], [])
  else
    let det_times := indices.map fun i => times.getD i 0
    let periods := (det_times.zip det_times.tail).map fun p => p.2 - p.1
    let speeds := periods.map fun p => 1 / p
    (periods, speeds, det_times)

/-- Mid-times of consecutive detections, as written to the periods CSV in
`main` (`0.5*(t[idx][1:] + t[idx][:-1])`); `compute_periods_times` computes
the same quantity internally. -/
def midTimes (det_times : List ℚ) : List ℚ :=
  (det_times.zip det_times.tail).map fun p => (p.1 + p.2) / 2

/-! ## Kalman random-walk baseline (`combined_detector_script.py` lines 84-96,
`combined_detector_stream.py` `update_kalman`, lines 141-154) -/

/-- State of the scalar random-walk Kalman filter: estimate `b`, variance `P`. -/
structure KState where
  b : ℝ
  P : ℝ

/-- One Kalman update:
`P_pred = P + q; K = P_pred/(P_pred+r); b += K*(x-b); P = (1-K)*P_pred`. -/
noncomputable def kalmanStep (q r : ℝ) (st : KState) (x : ℝ) : KState :=
  let Ppred := st.P + q
  let K := Ppred / (Ppred + r)
  ⟨st.b + K * (x - st.b), (1 - K) * Ppred⟩

/-- Baseline values for samples after the first, scanning `kalmanStep`. -/
noncomputable def kalmanScan (q r : ℝ) (st : KState) : List ℝ → List ℝ
  | [] => []
  | x :: rest =>
    let st' := kalmanStep q r st x
    st'.b :: kalmanScan q r st' rest

/-- Batch Kalman baseline of `kalman_matched_bank_method`: `b` starts at the
first sample with `P = 1`, and each later sample is filtered by `kalmanStep`.
The source indexes `x[0]` and so never runs on an empty series; the model
returns `[]` there. -/
noncomputable def kalmanBaseline (q r : ℝ) : List ℝ → List ℝ
  | [] => []
  | x0 :: rest => x0 :: kalmanScan q r ⟨x0, 1⟩ rest

/-- Streaming `update_kalman`: first call initialises `(b, P) = (x, 1)`,
later calls apply `kalmanStep`.  Returns the new `(b, P)`. -/
noncomputable def update_kalman (q r : ℝ) (b? : Option ℝ) (P : ℝ) (x : ℝ) :
    ℝ × ℝ :=
  match b? with
  | none => (x, 1)
  | some b =>
    let st := kalmanStep q r ⟨b, P⟩ x
    (st.b, st.P)

/-! ## Smoothed-minima batch detector (`combined_detector_script.py`,
`smoothed_minima_method`, lines 48-78) -/

/-- Configuration of `smoothed_minima_method` (its keyword arguments plus the
sampling rate). -/
structure SMCfg where
  fs : ℚ
  tractor_on_thr : ℚ
  smooth_win_s : ℚ
  prominence_psi : ℚ
  local_max_halfwin_s : ℚ
  min_sep_s : ℚ

/-- Moving-average window width `w = max(1, int(round(smooth_win_s * fs)))`.
A negative rounding result (only possible for degenerate configurations) is
clamped by `max 1` exactly as in the source. -/
def smW (cfg : SMCfg) : ℕ := max 1 (pyRound (cfg.smooth_win_s * cfg.fs)).toNat

/-- Half-window `int(round(local_max_halfwin_s * fs))` for the local-maximum
scan, kept as an integer as in the source. -/
def smHalfwin (cfg : SMCfg) : ℤ := pyRound (cfg.local_max_halfwin_s * cfg.fs)

/-- Minimum separation in samples, `int(round(min_sep_s * fs))`. -/
def smMinSep (cfg : SMCfg) : ℤ := pyRound (cfg.min_sep_s * cfg.fs)

/-- Batch moving-average smoothing of `smoothed_minima_method`:
edge-pad by `w // 2`, boxcar-convolve in same mode, then slice `[pad:-pad]`.
When `pad = 0` (window of one sample) the Python slice is empty and the
model preserves that. -/
def smoothSeries (cfg : SMCfg) (x : List ℚ) : List ℚ :=
  let w := smW cfg
  let pad := w / 2
  let xpad := List.replicate pad (x.headD 0) ++ x ++
    List.replicate pad (x.getLast?.getD 0)
  let box := List.replicate w ((1 : ℚ) / w)
  pyCenterSlice pad (sameConv xpad box)

/-- Prominence (`local_max - y[i]`) of a candidate minimum at index `i` of the
smoothed series, over the window `y[max(0,i-halfwin) : min(N,i+halfwin+1)]`
(`N` the raw-series length).  The `max` of an empty slice, which numpy would
raise on, is totalised with default `0`. -/
def smDepth (cfg : SMCfg) (n : ℕ) (y : List ℚ) (i : ℕ) : ℚ :=
  let left := (max 0 ((i : ℤ) - smHalfwin cfg)).toNat
  let right := (min (n : ℤ) ((i : ℤ) + smHalfwin cfg + 1)).toNat
  (pySlice left right y).max?.getD 0 - y.getD i 0

/-- Candidate test of the batch loop: tractor on at `i`, smoothed value a
strict left / weak right local minimum, prominence at least the threshold. -/
def smQual (cfg : SMCfg) (x y : List ℚ) (i : ℕ) : Bool :=
  decide (cfg.tractor_on_thr < x.getD i 0) &&
  decide (y.getD i 0 < y.getD (i - 1) 0) &&
  decide (y.getD i 0 ≤ y.getD (i + 1) 0) &&
  decide (cfg.prominence_psi ≤ smDepth cfg x.length y i)

/-- Accept-or-replace step shared by all peak pickers in the repository:
if the new index qualifies, accept it when it is the first detection or at
least `minSep` past the last accepted one; otherwise replace the last
accepted detection exactly when `better` holds, else drop the candidate. -/
def pickStep (minSep : ℤ) (qual : ℕ → Bool) (better : ℕ → ℕ → Bool)
    (st : List ℕ) (i : ℕ) : List ℕ :=
  if qual i then
    match st.getLast? with
    | none => st ++ [i]
    | some p =>
      if minSep ≤ (i : ℤ) - p then st ++ [i]
      else if better i p then st.dropLast ++ [i] else st
  else st

/-- Loop body of `smoothed_minima_method` (lines 62-77): the qualification is
`smQual`, and a within-window candidate replaces the last accepted detection
exactly when its prominence is strictly larger. -/
def smStep (cfg : SMCfg) (x y : List ℚ) : List ℕ → ℕ → List ℕ :=
  pickStep (smMinSep cfg) (smQual cfg x y)
    (fun i p => decide (smDepth cfg x.length y p < smDepth cfg x.length y i))

/-- Detection indices of `smoothed_minima_method`: the accept-or-replace loop
over `i = 1 .. N-2` on the smoothed series. -/
def smoothed_minima_method (cfg : SMCfg) (x : List ℚ) : List ℕ :=
  (List.range' 1 (x.length - 2)).foldl (smStep cfg x (smoothSeries cfg x)) []

/-! ## Template bank (`combined_detector_script.py` lines 99-112,
`combined_detector_stream.py` lines 111-124; the two are identical) -/

/-- Template length for a width in seconds: `int(round(w_s * fs))`, floored
to a minimum of 3 samples. -/
noncomputable def gaussKernelLen (fs w_s : ℝ) : ℕ :=
  let L0 := pyRound (w_s * fs)
  if L0 < 3 then 3 else L0.toNat

/-- Gaussian width `sigma = max(1.0, L/6.0)` of a template of length `L`. -/
noncomputable def gaussSigma (L : ℕ) : ℝ := max 1 ((L : ℝ) / 6)

/-- Gaussian sample `exp(-0.5*((i - (L-1)/2)/sigma)**2)` at index `i`. -/
noncomputable def gaussAt (L i : ℕ) : ℝ :=
  Real.exp (-(1 / 2) * ((((i : ℝ) - ((L : ℝ) - 1) / 2) / gaussSigma L) ^ 2))

/-- The raw negated pulse `-gauss`. -/
noncomputable def gaussPulse (L : ℕ) : List ℝ :=
  (List.range L).map fun i => -gaussAt L i

/-- The mean-subtracted pulse `pulse - pulse.mean()`. -/
noncomputable def gaussCentered (L : ℕ) : List ℝ :=
  (gaussPulse L).map fun v => v - (gaussPulse L).sum / L

/-- One Gaussian-like negative template of length `L`: the mean-subtracted
negated Gaussian divided by `max(np.linalg.norm(pulse), 1e-9)`. -/
noncomputable def gaussTemplate (L : ℕ) : List ℝ :=
  (gaussCentered L).map fun v => v / max (l2norm (gaussCentered L)) 1e-9

/-- Template lengths of the bank: widths linearly spaced over
`[min_w_s, max_w_s]`, converted to samples. -/
noncomputable def templateLens (fs min_w_s max_w_s : ℝ) (n : ℕ) : List ℕ :=
  (linspace min_w_s max_w_s n).map (gaussKernelLen fs)

/-- The template bank itself. -/
noncomputable def templateBank (fs min_w_s max_w_s : ℝ) (n : ℕ) : List (List ℝ) :=
  (linspace min_w_s max_w_s n).map fun w => gaussTemplate (gaussKernelLen fs w)

/-! ## Batch Kalman + matched-filter-bank detector
(`combined_detector_script.py`, `kalman_matched_bank_method`, lines 80-155) -/

/-- Configuration of `kalman_matched_bank_method`. -/
structure KMBCfg where
  fs : ℝ
  tractor_on_thr : ℝ
  kalman_q : ℝ
  kalman_r : ℝ
  min_w_s : ℝ
  max_w_s : ℝ
  n_templates : ℕ
  z_thresh : ℝ
  min_sep_s : ℝ

/-- Minimum separation in samples for the Kalman-method peak picker. -/
noncomputable def kmbMinSep (cfg : KMBCfg) : ℤ := pyRound (cfg.min_sep_s * cfg.fs)

/-- Full real convolution (as `fullConv`, over `ℝ`). -/
noncomputable def fullConvR (a b : List ℝ) : List ℝ :=
  (List.range (a.length + b.length - 1)).map fun n =>
    (((List.range (n + 1)).map fun k => a.getD k 0 * b.getD (n - k) 0)).sum

/-- Same-mode real convolution (as `sameConv`, over `ℝ`). -/
noncomputable def sameConvR (a b : List ℝ) : List ℝ :=
  ((fullConvR a b).drop ((min a.length b.length - 1) / 2)).take
    (max a.length b.length)

/-- Epsilon-floored correlation denominator
`sqrt(max(local_energy * ‖h‖², 1e-12))` (script line 122, stream line 184). -/
noncomputable def corr_denom (localEnergy tNormSq : ℝ) : ℝ :=
  Real.sqrt (max (localEnergy * tNormSq) 1e-12)

/-- Normalized correlation series of one template `h` against the residual:
`num = conv(residual, h[::-1], 'same')`, `local_energy = conv(residual²,
ones(L), 'same')`, entrywise `num / corr_denom`. -/
noncomputable def corrSeries (h residual : List ℝ) : List ℝ :=
  let num := sameConvR residual h.reverse
  let localEnergy := sameConvR (residual.map fun v => v ^ 2)
    (List.replicate h.length 1)
  (List.range residual.length).map fun i =>
    num.getD i 0 / corr_denom (localEnergy.getD i 0) (l2norm h ^ 2)

/-- Epsilon-floored robust-z denominator of the batch method: the raw MAD of
the values plus `1e-9` (script lines 131-133). -/
noncomputable def mad_denom (l : List ℝ) : ℝ :=
  npMedian (l.map fun v => |v - npMedian l|) + 1e-9

/-- Best (most negative) correlation across the bank at index `i`
(`np.nanmin(corrs, axis=0)`; every entry is finite in the batch pipeline, so
`nanmin` is an ordinary minimum).  An empty bank is totalised to `0`. -/
noncomputable def bestCorrAt (corrs : List (List ℝ)) (i : ℕ) : ℝ :=
  ((corrs.map fun c => c.getD i 0).min?).getD 0

/-- Robust z-score series of the batch method: median/MAD statistics taken
over the tractor-on samples when any exist, else over all samples (all
best-correlation entries are finite, so the `nanmedian` fallback is the
plain median). -/
noncomputable def kmbZ (cfg : KMBCfg) (x : List ℝ) (corrs : List (List ℝ)) :
    ℕ → ℝ :=
  let onIdx := (List.range x.length).filter fun i =>
    decide (cfg.tractor_on_thr < x.getD i 0)
  let vals := if onIdx ≠ [] then onIdx.map (bestCorrAt corrs)
    else (List.range x.length).map (bestCorrAt corrs)
  let med := npMedian vals
  let mad := mad_denom vals
  fun i => (bestCorrAt corrs i - med) / (1.4826 * mad)

/-- One grouping step for the contiguous-run decomposition of the candidate
list: prepend `a` to the first group when the gap to its head is at most one
sample, else open a new group. -/
def groupStep (a : ℕ) (gs : List (List ℕ)) : List (List ℕ) :=
  match gs with
  | [] => [[a]]
  | g :: rest =>
    match g with
    | [] => [a] :: rest
    | b :: _ => if b - a ≤ 1 then (a :: g) :: rest else [a] :: g :: rest

/-- Contiguous-run grouping of the candidate list: the batch peak picker's
inner `while` walks each maximal run of candidates whose successive gaps are
at most one sample. -/
def groupRuns (l : List ℕ) : List (List ℕ) := l.foldr groupStep []

/-- Representative of one contiguous run: the earliest index of strictly
minimal score, exactly as the inner `while` keeps `best_idx`. -/
noncomputable def clusterRep (z : ℕ → ℝ) : List ℕ → ℕ
  | [] => 0
  | c :: cs => cs.foldl (fun best j => if z j < z best then j else best) c

/-- Detection indices of `kalman_matched_bank_method`: Kalman residual,
per-template normalized correlations, robust z-scores, then the clustered
accept-or-replace peak picker (lines 136-151; replacement happens when the
new cluster representative has the more negative z-score). -/
noncomputable def kalman_matched_bank_method (cfg : KMBCfg) (x : List ℝ) :
    List ℕ :=
  let baseline := kalmanBaseline cfg.kalman_q cfg.kalman_r x
  let residual := x.zipWith (fun a b => a - b) baseline
  let templates := templateBank cfg.fs cfg.min_w_s cfg.max_w_s cfg.n_templates
  let corrs := templates.map fun h => corrSeries h residual
  let z := kmbZ cfg x corrs
  let candidates := (List.range x.length).filter fun i =>
    decide (z i < cfg.z_thresh) && decide (cfg.tractor_on_thr < x.getD i 0)
  let reps := (groupRuns candidates).map (clusterRep z)
  reps.foldl
    (pickStep (kmbMinSep cfg) (fun _ => true) fun i p => decide (z i < z p)) []

/-! ## Streaming Kalman + matched-filter-bank detector
(`combined_detector_stream.py`, `KalmanMatchedBankStream`, lines 92-213) -/

/-- Dot product of two equal-length lists (`np.dot`). -/
def dotR (a b : List ℝ) : ℝ := (a.zipWith (fun u v => u * v) b).sum

/-- Templates of the streaming detector (built identically to the batch
bank). -/
noncomputable def kmbStreamTemplates (cfg : KMBCfg) : List (List ℝ) :=
  templateBank cfg.fs cfg.min_w_s cfg.max_w_s cfg.n_templates

/-- Template lengths (`self.L_list`). -/
noncomputable def kmbStreamLens (cfg : KMBCfg) : List ℕ :=
  templateLens cfg.fs cfg.min_w_s cfg.max_w_s cfg.n_templates

/-- Longest template length (`self.maxL = max(self.L_list)`), sizing the
circular residual buffer; totalised to `0` for an empty bank. -/
noncomputable def kmbMaxL (cfg : KMBCfg) : ℕ := (kmbStreamLens cfg).max?.getD 0

/-- Shortest template length; the streaming warm-up lasts `kmbMinL - 1`
samples. -/
noncomputable def kmbMinL (cfg : KMBCfg) : ℕ := (kmbStreamLens cfg).min?.getD 0

/-- Capacity of the recent-best-correlation window
(`deque(maxlen=int(round(5.0*fs)))`). -/
noncomputable def kmbRecentCap (cfg : KMBCfg) : ℕ := (pyRound (5 * cfg.fs)).toNat

/-- Epsilon-floored streaming z-score denominator
`1.4826 * max(robust_mad, 1e-9)` (`process`, line 202). -/
noncomputable def z_denom_stream (mad : ℝ) : ℝ := 1.4826 * max mad 1e-9

/-- Mutable state of `KalmanMatchedBankStream`. -/
structure KMBStreamState where
  P : ℝ
  b : Option ℝ
  res_buf : List ℝ
  res_idx : ℤ
  last_det_idx : ℤ
  sample_idx : ℤ
  robust_med : ℝ
  robust_mad : ℝ
  recent_best : List ℝ

/-- Initial state of `KalmanMatchedBankStream.__init__`. -/
noncomputable def kmbInit (cfg : KMBCfg) : KMBStreamState :=
  ⟨1, none, List.replicate (kmbMaxL cfg) 0, -1, -1, -1, 0, 1, []⟩

/-- An emitted streaming detection
`(sample_idx, t, x, best_k, best_corr, z)`. -/
structure KMBDet where
  idx : ℤ
  t : ℝ
  x : ℝ
  k : ℕ
  corr : ℝ
  z : ℝ

/-- Reconstruction of the most recent `L` residuals, in time order, from the
circular buffer (`process`, lines 176-180). -/
noncomputable def kmbWindow (buf : List ℝ) (res_idx : ℤ) (L maxL : ℕ) :
    List ℝ :=
  let idx0 := (res_idx - ((L : ℤ) - 1)) % (maxL : ℤ)
  if idx0 ≤ res_idx then pySlice idx0.toNat (res_idx.toNat + 1) buf
  else buf.drop idx0.toNat ++ buf.take (res_idx.toNat + 1)

/-- The residual pushed into the circular buffer by one `process` call:
the sample minus the updated Kalman baseline. -/
noncomputable def kmbResidual (cfg : KMBCfg) (st : KMBStreamState) (x : ℝ) :
    ℝ :=
  x - (update_kalman cfg.kalman_q cfg.kalman_r st.b st.P x).1

/-- Best (most negative) per-template correlation at the current sample:
templates whose length exceeds the number of samples seen are skipped, so
the result is `none` (NaN in the source) until `sample_idx ≥ minL - 1`. -/
noncomputable def kmbBestAt (cfg : KMBCfg) (sample' : ℤ) (buf' : List ℝ)
    (resIdx' : ℤ) : Option (ℕ × ℝ) :=
  ((kmbStreamTemplates cfg).zip (kmbStreamLens cfg)).enum.foldl
    (fun acc kv =>
      if sample' < (kv.2.2 : ℤ) - 1 then acc
      else
        let win := kmbWindow buf' resIdx' kv.2.2 (kmbMaxL cfg)
        let corr := dotR win kv.2.1.reverse /
          corr_denom (dotR win win) (l2norm kv.2.1 ^ 2)
        match acc with
        | none => some (kv.1, corr)
        | some b0 => if corr < b0.2 then some (kv.1, corr) else acc)
    none

/-- Streaming z-score from the best correlation and the robust statistics
(`process`, lines 200-204): NaN (`none`) exactly when the best correlation
is NaN. -/
noncomputable def kmbZOf (best : Option (ℕ × ℝ)) (med mad : ℝ) : Option ℝ :=
  best.map fun b0 => (b0.2 - med) / z_denom_stream mad

/-- One call of `KalmanMatchedBankStream.process`: baseline update, residual
push, matched-filter bank, robust-statistics update, z-score, and the
refractory peak pick.  Returns the new state, the detection (if any) and the
best correlation (`none` models NaN). -/
noncomputable def kmbProcess (cfg : KMBCfg) (st : KMBStreamState) (t x : ℝ) :
    KMBStreamState × Option KMBDet × Option ℝ :=
  let sample' := st.sample_idx + 1
  let bP := update_kalman cfg.kalman_q cfg.kalman_r st.b st.P x
  let residual := x - bP.1
  let resIdx' := (st.res_idx + 1) % ((kmbMaxL cfg : ℤ))
  let buf' := st.res_buf.set resIdx'.toNat residual
  let best := kmbBestAt cfg sample' buf' resIdx'
  let stats :=
    match best with
    | some b0 =>
      if cfg.tractor_on_thr < x then
        let rec' := pushTrunc (kmbRecentCap cfg) st.recent_best b0.2
        if 5 ≤ rec'.length then
          (rec', (1 - 0.01) * st.robust_med + 0.01 * npMedian rec',
            (1 - 0.01) * st.robust_mad + 0.01 * mad_denom rec')
        else (rec', st.robust_med, st.robust_mad)
      else (st.recent_best, st.robust_med, st.robust_mad)
    | none => (st.recent_best, st.robust_med, st.robust_mad)
  let z : Option ℝ := kmbZOf best stats.2.1 stats.2.2
  let pick : Option KMBDet × ℤ :=
    match best, z with
    | some b0, some zv =>
      if cfg.tractor_on_thr < x ∧ zv < cfg.z_thresh then
        if st.last_det_idx < 0 ∨ kmbMinSep cfg ≤ sample' - st.last_det_idx then
          (some ⟨sample', t, x, b0.1, b0.2, zv⟩, sample')
        else (none, st.last_det_idx)
      else (none, st.last_det_idx)
    | _, _ => (none, st.last_det_idx)
  (⟨bP.2, some bP.1, buf', resIdx', pick.2, sample', stats.2.1, stats.2.2,
    stats.1⟩, pick.1, best.map fun b0 => b0.2)

/-- Streaming run: one `(t, x)` sample per `process` call, collecting the
per-sample `(detection?, best_corr?)` outputs. -/
noncomputable def kmbStreamRun (cfg : KMBCfg) (st : KMBStreamState) :
    List (ℝ × ℝ) → List (Option KMBDet × Option ℝ)
  | [] => []
  | (t, x) :: rest =>
    let r := kmbProcess cfg st t x
    (r.2.1, r.2.2) :: kmbStreamRun cfg r.1 rest

/-- Sample indices of the detections emitted by a streaming run from the
freshly initialised state. -/
noncomputable def kmbStreamDets (cfg : KMBCfg) (samples : List (ℝ × ℝ)) :
    List ℤ :=
  (kmbStreamRun cfg (kmbInit cfg) samples).filterMap fun o =>
    o.1.map fun d => d.idx

/-! ## Streaming smoothed-minima detector
(`combined_detector_stream.py`, `run_streaming_mode`'s callback,
lines 290-344) -/

/-- Configuration of the streaming old method (the relevant CLI arguments
plus the estimated sampling rate). -/
structure OldCfg where
  est_fs : ℚ
  tractor_on_thr : ℚ
  smooth_win_s : ℚ
  prominence_psi : ℚ
  local_max_halfwin_s : ℚ
  min_sep_s : ℚ

/-- Moving-average width `w = max(1, int(round(smooth_win_s * est_fs)))`. -/
def oldW (cfg : OldCfg) : ℕ := max 1 (pyRound (cfg.smooth_win_s * cfg.est_fs)).toNat

/-- Half-window `int(round(local_max_halfwin_s * est_fs))`. -/
def oldHalfwin (cfg : OldCfg) : ℤ := pyRound (cfg.local_max_halfwin_s * cfg.est_fs)

/-- History capacity `halfwin*2 + 5` of the smoothed-value deque. -/
def oldMaxHist (cfg : OldCfg) : ℕ := (oldHalfwin cfg * 2 + 5).toNat

/-- Minimum separation `int(round(min_sep_s * est_fs))`. -/
def oldMinSep (cfg : OldCfg) : ℤ := pyRound (cfg.min_sep_s * cfg.est_fs)

/-- State of the streaming old method: the moving-average deque (created full
of zeros, so its initial-fill branch in the source is dead code and every
step pops the left element), its running sum, the smoothed-value history,
and the sample / last-detection counters. -/
structure OldState where
  ma_buf : List ℚ
  ma_sum : ℚ
  hist : List ℚ
  sample_idx : ℤ
  last_old_det : ℤ

/-- Initial streaming-old-method state. -/
def oldInit (cfg : OldCfg) : OldState :=
  ⟨List.replicate (oldW cfg) 0, 0, [], -1, -1⟩

/-- The per-sample measurement shared by the detection rule and the
spec-variant below: moving-average update, smoothed history push, and the
qualifying candidate `(cand_idx, cand_time, center, depth)` if the centred
history entry is tractor-on and prominent enough.  The updated state carries
the old `last_old_det`, which the caller then resolves. -/
def oldMeasure (cfg : OldCfg) (st : OldState) (t x : ℚ) :
    OldState × Option (ℤ × ℚ × ℚ × ℚ) :=
  let sample' := st.sample_idx + 1
  let left := st.ma_buf.headD 0
  let buf' := st.ma_buf.tail ++ [x]
  let sum' := st.ma_sum - left + x
  let smoothed := if 0 < buf'.length then sum' / buf'.length else x
  let hist' := pushTrunc (oldMaxHist cfg) st.hist smoothed
  let n := hist'.length
  let cand? :=
    if 3 ≤ n then
      let c := n / 2
      let center := hist'.getD c 0
      if cfg.tractor_on_thr < x then
        let lo := (max 0 ((c : ℤ) - oldHalfwin cfg)).toNat
        let hi := (min (n : ℤ) ((c : ℤ) + oldHalfwin cfg + 1)).toNat
        let depth := (pySlice lo hi hist').max?.getD 0 - center
        if cfg.prominence_psi ≤ depth then
          some (sample' - ((n : ℤ) - 1 - c),
            t - (((n : ℤ) - 1 - c) : ℚ) * (1 / cfg.est_fs), center, depth)
        else none
      else none
    else none
  (⟨buf', sum', hist', sample', st.last_old_det⟩, cand?)

/-- One callback step of the streaming old method, as written: a qualifying
candidate is recorded only when there is no prior detection or it lies at
least `oldMinSep` past it; otherwise it is dropped.  Emits
`(cand_idx, cand_time, center)` rows as written to the stream CSV. -/
def oldStep (cfg : OldCfg) (st : OldState) (t x : ℚ) :
    OldState × Option (ℤ × ℚ × ℚ) :=
  let m := oldMeasure cfg st t x
  match m.2 with
  | some cand =>
    if st.last_old_det < 0 ∨ oldMinSep cfg ≤ cand.1 - st.last_old_det then
      ({ m.1 with last_old_det := cand.1 }, some (cand.1, cand.2.1, cand.2.2.1))
    else (m.1, none)
  | none => (m.1, none)

/-- Streaming old-method run, collecting the emitted rows. -/
def oldRun (cfg : OldCfg) (st : OldState) :
    List (ℚ × ℚ) → List (ℤ × ℚ × ℚ)
  | [] => []
  | (t, x) :: rest =>
    let r := oldStep cfg st t x
    (match r.2 with | some row => [row] | none => []) ++ oldRun cfg r.1 rest

/-- Streaming old-method detections from the initial state. -/
def run_streaming_old (cfg : OldCfg) (samples : List (ℚ × ℚ)) :
    List (ℤ × ℚ × ℚ) :=
  oldRun cfg (oldInit cfg) samples

/-- Modelled from the spec: the replacement semantics the specification
asserts for the smoothed-minima detector in streaming form ("if a new
candidate arrives within that window and has greater prominence than the
previously accepted one, it replaces it").  Identical to `oldRun` except
that a within-window candidate of strictly greater prominence overwrites the
last emitted row.  Used only to witness that the code's streaming form does
not implement this semantics. -/
def oldRunReplacing (cfg : OldCfg) (st : OldState) (lastDepth : ℚ)
    (out : List (ℤ × ℚ × ℚ)) : List (ℚ × ℚ) → List (ℤ × ℚ × ℚ)
  | [] => out
  | (t, x) :: rest =>
    let m := oldMeasure cfg st t x
    match m.2 with
    | some cand =>
      if st.last_old_det < 0 ∨ oldMinSep cfg ≤ cand.1 - st.last_old_det then
        oldRunReplacing cfg { m.1 with last_old_det := cand.1 } cand.2.2.2
          (out ++ [(cand.1, cand.2.1, cand.2.2.1)]) rest
      else if lastDepth < cand.2.2.2 then
        oldRunReplacing cfg { m.1 with last_old_det := cand.1 } cand.2.2.2
          (out.dropLast ++ [(cand.1, cand.2.1, cand.2.2.1)]) rest
      else oldRunReplacing cfg m.1 lastDepth out rest
    | none => oldRunReplacing cfg m.1 lastDepth out rest

/-- Spec-variant streaming old-method detections from the initial state. -/
def run_streaming_old_replacing (cfg : OldCfg) (samples : List (ℚ × ℚ)) :
    List (ℤ × ℚ × ℚ) :=
  oldRunReplacing cfg (oldInit cfg) 0 [] samples

/-! ## Monte-Carlo detector (`dip_detector_montecarlo.py`, `DipDetector`,
lines 36-89; the identical class also lives in `dipdetector.py`) -/

/-- Epsilon-floored scale denominator `max(self.s, 1e-6)` of
`DipDetector.update` (line 63). -/
noncomputable def scale_denom (s : ℝ) : ℝ := max s 1e-6

/-- Epsilon-floored matched-filter denominator
`sqrt(max(sumx2 - L*meanx*meanx, 1e-9))` of `DipDetector.update`
(lines 77-78). -/
noncomputable def rho_denom (varx : ℝ) : ℝ := Real.sqrt (max varx 1e-9)

/-- Raw negative-Hann pulse of `DipDetector.__init__`:
`t = -0.5*(1 - cos(2*pi*arange(L)/(L-1)))`. -/
noncomputable def dipRaw (L : ℕ) : List ℝ :=
  (List.range L).map fun j : ℕ =>
    -(1 / 2) * (1 - Real.cos (2 * Real.pi * (j : ℝ) / ((L : ℝ) - 1)))

/-- The mean-subtracted pulse `t -= t.mean()`. -/
noncomputable def dipCentered (L : ℕ) : List ℝ :=
  (dipRaw L).map fun v => v - (dipRaw L).sum / L

/-- The final template: mean-subtracted pulse divided by
`max(np.linalg.norm(t), 1e-9)`. -/
noncomputable def dipTemplate (L : ℕ) : List ℝ :=
  (dipCentered L).map fun v => v / max (l2norm (dipCentered L)) 1e-9

/-- Configuration of a `DipDetector` instance (template length, EWMA
factors, threshold multiplier, refractory length in samples). -/
structure DipCfg where
  L : ℕ
  alpha : ℝ
  beta : ℝ
  thr_k : ℝ
  refractory : ℕ

/-- Mutable state of `DipDetector`. -/
structure DipState where
  m : ℝ
  s : ℝ
  buf : List ℝ
  rho_std : ℝ
  cooldown : ℕ
  started : Bool

/-- Initial `DipDetector` state: `m = 0`, `s = 1`, zero-filled buffer of
length `L`, `rho_std = 1`, no cooldown, not started. -/
noncomputable def dipInit (L : ℕ) : DipState :=
  ⟨0, 1, List.replicate L 0, 1, 0, false⟩

/-- One `DipDetector.update(x)` call: EWMA baseline and scale, normalized
sample into the sliding buffer, start-up gate, matched-filter statistic
`rho`, adaptive `rho_std`, and the refractory detection rule.  Returns the
new state, `rho` (`none` before start-up) and the detection flag. -/
noncomputable def dipUpdate (cfg : DipCfg) (st : DipState) (x : ℝ) :
    DipState × Option ℝ × Bool :=
  let m' := (1 - cfg.alpha) * st.m + cfg.alpha * x
  let dev := |x - m'|
  let s' := (1 - cfg.beta) * st.s + cfg.beta * max dev 1e-6
  let xn := (x - m') / scale_denom s'
  let buf' := st.buf.tail ++ [xn]
  let started' := st.started || buf'.any fun v => decide ((1e-12 : ℝ) < |v|)
  if started' then
    let sumxt := dotR buf' (dipTemplate cfg.L)
    let sumx := buf'.sum
    let sumx2 := dotR buf' buf'
    let meanx := sumx / cfg.L
    let rho := sumxt / rho_denom (sumx2 - cfg.L * meanx * meanx)
    let rho_std' := (1 - 0.02) * st.rho_std + 0.02 * |rho|
    if 0 < st.cooldown then
      (⟨m', s', buf', rho_std', st.cooldown - 1, started'⟩, some rho, false)
    else if rho < -cfg.thr_k * rho_std' then
      (⟨m', s', buf', rho_std', cfg.refractory, started'⟩, some rho, true)
    else (⟨m', s', buf', rho_std', st.cooldown, started'⟩, some rho, false)
  else (⟨m', s', buf', st.rho_std, st.cooldown, started'⟩, none, false)

/-- The `DipDetector` configuration the sweep driver instantiates per trial:
`DipDetector(fs=fs, L=L, thr_k=thr_k, refractory_s=1.5)` with the class
defaults `alpha = beta = 0.02`. -/
noncomputable def harnessDipCfg (fs : ℝ) (L : ℕ) (thr_k : ℝ) : DipCfg :=
  ⟨L, 0.02, 0.02, thr_k, (pyRound ((1.5 : ℝ) * fs)).toNat⟩

/-- Batch semantics of a `DipDetector` over a series: the indices at which
`update` reports a detection. -/
noncomputable def dipDetectionIndices (cfg : DipCfg) (st : DipState) (i : ℕ) :
    List ℝ → List ℕ
  | [] => []
  | x :: rest =>
    let r := dipUpdate cfg st x
    (if r.2.2 then [i] else []) ++ dipDetectionIndices cfg r.1 (i + 1) rest

/-- The per-trial detection loop of `evaluate_detector` (lines 130-136):
one fresh `DipDetector`, `update` per sample, recording `times[i] = i/fs`
(the simulator's `times = arange(n) * (1/fs)`) on each detection. -/
noncomputable def evaluate_trial_times (fs : ℝ) (L : ℕ) (thr_k : ℝ)
    (xs : List ℝ) : List ℝ :=
  go (harnessDipCfg fs L thr_k) (dipInit L) 0 xs
where
  go (cfg : DipCfg) (st : DipState) (i : ℕ) : List ℝ → List ℝ
    | [] => []
    | x :: rest =>
      let r := dipUpdate cfg st x
      (if r.2.2 then [(i : ℝ) * (1 / fs)] else []) ++ go cfg r.1 (i + 1) rest

/-- Detection indices of one sweep trial (same loop, recording indices). -/
noncomputable def evaluate_trial_indices (fs : ℝ) (L : ℕ) (thr_k : ℝ)
    (xs : List ℝ) : List ℕ :=
  dipDetectionIndices (harnessDipCfg fs L thr_k) (dipInit L) 0 xs

/-! ## Trial scoring and aggregation (`evaluate_detector`, lines 137-162,
and `main`, lines 179-186) -/

/-- One step of the greedy matching of detections to true dip starts
(lines 141-149): for the detection `d`, the first not-yet-matched true event
within the tolerance (if any) is matched.  The accumulator carries the
true-positive count and the matched true-event indices in match order. -/
def matchStep (dips : List ℚ) (tol : ℚ) (acc : ℕ × List ℕ) (d : ℚ) :
    ℕ × List ℕ :=
  let idx := (List.range dips.length).filter fun j =>
    decide (|dips.getD j 0 - d| ≤ tol)
  match idx.find? fun j => decide (j ∉ acc.2) with
  | some j => (acc.1 + 1, acc.2 ++ [j])
  | none => acc

/-- Greedy matching over all detections of one trial (lines 139-149). -/
def matchFold (dips : List ℚ) (tol : ℚ) (dets : List ℚ) : ℕ × List ℕ :=
  dets.foldl (matchStep dips tol) (0, [])

/-- Per-trial counts (lines 150-152): `fp = max(0, n_detections - tp)`,
`fn = max(0, n_dips - tp)`. -/
structure TrialCounts where
  tp : ℤ
  fp : ℤ
  fn : ℤ
  n_dips : ℤ
  n_detections : ℤ

/-- Score one trial from its true dip starts and detection times. -/
def trial_counts (dips dets : List ℚ) (tol : ℚ) : TrialCounts :=
  let tp := (matchFold dips tol dets).1
  ⟨tp, max 0 ((dets.length : ℤ) - tp), max 0 ((dips.length : ℤ) - tp),
    dips.length, dets.length⟩

/-- Aggregated counts over all trials of one configuration
(lines 156-162). -/
structure AggCounts where
  trials : ℕ
  tp : ℤ
  fp : ℤ
  fn : ℤ
  dips : ℤ
  detections : ℤ

/-- Aggregate the per-trial counts by summation; each trial is given as its
pair of (true dip starts, detection times). -/
def aggregate (trialData : List (List ℚ × List ℚ)) (tol : ℚ) : AggCounts :=
  let rs := trialData.map fun p => trial_counts p.1 p.2 tol
  ⟨trialData.length, (rs.map (·.tp)).sum, (rs.map (·.fp)).sum,
    (rs.map (·.fn)).sum, (rs.map (·.n_dips)).sum,
    (rs.map (·.n_detections)).sum⟩

/-- True-positive rate of a summary row (`main`, line 181):
`tp / dips` when any dips were simulated, else `0`. -/
def tprOf (agg : AggCounts) : ℚ :=
  if 0 < agg.dips then (agg.tp : ℚ) / (agg.dips : ℚ) else 0

/-- False positives per minute of a summary row (`main`, lines 183-184):
total FP over total simulated minutes `trials * duration/60`. -/
def fpmOf (agg : AggCounts) (duration_s : ℚ) : ℚ :=
  (agg.fp : ℚ) / ((agg.trials : ℚ) * (duration_s / 60))

/-- Modelled from the spec: the trial loop of `evaluate_detector`
(lines 123-152) with the per-trial body (whose RNG-driven simulation is not
embeddable) abstracted as a fallible computation.  The source loop contains
no exception handling, which the monadic bind makes explicit: the first
failing trial propagates. -/
def evaluate_detector_trials {α : Type} (runTrial : ℕ → Except String α)
    (trials : ℕ) : Except String (List α) :=
  (List.range trials).foldl
    (fun acc tr => do
      let rs ← acc
      let r ← runTrial tr
      pure (rs ++ [r]))
    (Except.ok [])

/-! ## Concrete data used by counterexamples and witnesses -/

/-- A trial function whose first trial fails; used to exhibit that the sweep
loop has no per-trial failure isolation. -/
def cexTrialFun : ℕ → Except String ℕ :=
  fun i => if i = 0 then Except.error "boom" else Except.ok i

/-- A trial function whose second trial fails, the first succeeding. -/
def cexTrialFun2 : ℕ → Except String ℕ :=
  fun i => if i = 1 then Except.error "late" else Except.ok 7

/-- Streaming old-method configuration at 2 Hz with the CLI defaults
(`smooth_win_s 0.7`, `prominence 25`, `halfwin 2.5 s`, `min_sep 3 s`,
threshold 1500). -/
def oldCfg2Hz : OldCfg := ⟨2, 1500, 7 / 10, 25, 5 / 2, 3⟩

/-- A ten-sample pressure stream with a shallow dip (1900 psi) followed,
three samples later at candidate distance below the separation window, by a
much deeper dip (1700 psi). -/
def oldSamplesCex : List (ℚ × ℚ) :=
  [(0, 2000), (1 / 2, 1900), (1, 2000), (3 / 2, 2000), (2, 1700),
   (5 / 2, 2000), (3, 2000), (7 / 2, 2000), (4, 2000), (9 / 2, 2000)]

/-- A 28-sample series, every value far below the 1500 psi tractor-on
threshold, crafted so that the harness's `DipDetector` (with `L = 4`,
`thr_k = 1.6`, `fs = 30`) normalises it to the unit-step staircase that
keeps `rho = 0` while `rho_std` decays, and then sees an exact
`[1, 2, 2, 1]` window with `rho = -1`, firing a detection at sample 27. -/
noncomputable def tractorOffSeries : List ℝ :=
  ((List.range 25).map fun n : ℕ => ((n : ℝ) + 50) / 49) ++
    [1525 / 588, 75601 / 28224, 46789 / 28224]

/-- The batch Kalman/matched-bank configuration at the harness sampling rate
(30 Hz) with the source defaults. -/
noncomputable def kmbCfg30 : KMBCfg :=
  ⟨30, 1500, 1, 10000, 1 / 2, 3 / 2, 5, -3, 2⟩

/-- A single-template streaming configuration (30 Hz) used to witness the
warm-up invariant on concrete data. -/
noncomputable def kmbCfgW : KMBCfg :=
  ⟨30, 1500, 1, 10000, 1 / 2, 3 / 2, 1, -3, 2⟩

/-! ## Helper lemmas -/

theorem zipTail_map_getD (l : List ℚ) (f : ℚ × ℚ → ℚ) (i : ℕ)
    (h : i + 1 < l.length) :
    ((l.zip l.tail).map f).getD i 0 = f (l.getD i 0, l.getD (i + 1) 0) := by
  have hlen : i < ((l.zip l.tail).map f).length := by
    simp [List.length_zip]; omega
  have h1 : i < l.length := by omega
  have h2 : i < l.tail.length := by simp; omega
  rw [List.getD_eq_getElem _ _ hlen, List.getElem_map, List.getElem_zip,
    List.getElem_tail, List.getD_eq_getElem _ _ h1, List.getD_eq_getElem _ _ h]

theorem length_zipTail_map (l : List ℚ) (f : ℚ × ℚ → ℚ) :
    ((l.zip l.tail).map f).length = l.length - 1 := by
  simp [List.length_zip]

theorem npMedian_nonneg {l : List ℝ} (h : ∀ v ∈ l, 0 ≤ v) : 0 ≤ npMedian l := by
  have hmem : ∀ v ∈ l.mergeSort fun a b => decide (a ≤ b), 0 ≤ v := by
    intro v hv
    exact h v ((List.mergeSort_perm l _).mem_iff.mp hv)
  have hD : ∀ k : ℕ, 0 ≤ (l.mergeSort fun a b => decide (a ≤ b)).getD k 0 := by
    intro k
    by_cases hk : k < (l.mergeSort fun a b => decide (a ≤ b)).length
    · rw [List.getD_eq_getElem _ _ hk]
      exact hmem _ (List.getElem_mem hk)
    · rw [List.getD_eq_default _ _ (by omega)]
  have := hD ((l.length - 1) / 2)
  have := hD (l.length / 2)
  unfold npMedian
  positivity

theorem mad_denom_pos (l : List ℝ) : 0 < mad_denom l := by
  have h : 0 ≤ npMedian (l.map fun v => |v - npMedian l|) := by
    apply npMedian_nonneg
    intro v hv
    obtain ⟨w, _, rfl⟩ := List.mem_map.mp hv
    exact abs_nonneg _
  unfold mad_denom
  norm_num
  linarith

/-! ## C3: the Period/Speed computer -/

/-- Claim C3: given an ordered detection-time sequence of length `n ≥ 2` the
period computer produces exactly `n-1` records with
`period = t[i+1] - t[i]`, `mid_time = (t[i]+t[i+1])/2` and `speed` the exact
reciprocal `1/period`; for `n < 2` it returns empty sequences and raises no
error. -/
theorem period_speed_computer_correct (indices : List ℕ) (times : List ℚ)
    (i : ℕ) :
    (indices.length < 2 → compute_periods_times indices times = ([], [], [])) ∧
    (2 ≤ indices.length →
      (compute_periods_times indices times).1.length = indices.length - 1 ∧
      (compute_periods_times indices times).2.1.length = indices.length - 1 ∧
      (compute_periods_times indices times).2.2.length = indices.length ∧
      (midTimes (compute_periods_times indices times).2.2).length =
        indices.length - 1) ∧
    (2 ≤ indices.length → i < indices.length - 1 →
      (compute_periods_times indices times).1.getD i 0 =
        (compute_periods_times indices times).2.2.getD (i + 1) 0 -
          (compute_periods_times indices times).2.2.getD i 0 ∧
      (compute_periods_times indices times).2.1.getD i 0 =
        1 / (compute_periods_times indices times).1.getD i 0 ∧
      (midTimes (compute_periods_times indices times).2.2).getD i 0 =
        ((compute_periods_times indices times).2.2.getD i 0 +
          (compute_periods_times indices times).2.2.getD (i + 1) 0) / 2) := by
  refine ⟨fun h => ?_, fun h => ?_, fun h hi => ?_⟩
  · simp only [compute_periods_times, if_pos h]
  · have hnot : ¬ indices.length < 2 := by omega
    simp only [compute_periods_times, if_neg hnot, midTimes]
    refine ⟨?_, ?_, by simp, ?_⟩
    · rw [length_zipTail_map]; simp
    · rw [List.length_map, length_zipTail_map]; simp
    · rw [length_zipTail_map]; simp
  · have hnot : ¬ indices.length < 2 := by omega
    have hdet : (indices.map fun j => times.getD j 0).length = indices.length := by
      simp
    have hi1 : i + 1 < (indices.map fun j => times.getD j 0).length := by
      rw [hdet]; omega
    simp only [compute_periods_times, if_neg hnot, midTimes]
    refine ⟨?_, ?_, ?_⟩
    · exact zipTail_map_getD _ _ _ hi1
    · have hlen : i < (((indices.map fun j => times.getD j 0).zip
          (indices.map fun j => times.getD j 0).tail).map
            fun p => p.2 - p.1).length := by
        rw [length_zipTail_map, hdet]; omega
      rw [List.getD_eq_getElem _ _ (by simpa using hlen),
        List.getD_eq_getElem _ _ hlen, List.getElem_map]
    · exact zipTail_map_getD _ _ _ hi1

/-- Witness for C3 at a concrete three-detection input (and a one-detection
input for the empty branch). -/
theorem period_speed_computer_correct_witness :
    compute_periods_times [9] [1, 2] = ([], [], []) ∧
    (compute_periods_times [0, 1, 2] [10, 12, 15]).1.getD 0 0 =
      (compute_periods_times [0, 1, 2] [10, 12, 15]).2.2.getD 1 0 -
        (compute_periods_times [0, 1, 2] [10, 12, 15]).2.2.getD 0 0 :=
  ⟨(period_speed_computer_correct [9] [1, 2] 0).1 (by decide),
    ((period_speed_computer_correct [0, 1, 2] [10, 12, 15] 0).2.2 (by decide)
      (by decide)).1⟩

/-! ## C8: baseline convergence on a constant signal -/

theorem kalmanScan_const (q r c : ℝ) :
    ∀ (n : ℕ) (P : ℝ), ∀ b ∈ kalmanScan q r ⟨c, P⟩ (List.replicate n c), b = c := by
  intro n
  induction n with
  | zero => intro P b hb; simp [kalmanScan] at hb
  | succ k ih =>
    intro P b hb
    have hstep : kalmanStep q r ⟨c, P⟩ c = ⟨c, (1 - (P + q) / (P + q + r)) * (P + q)⟩ := by
      simp [kalmanStep]
    rw [List.replicate_succ, kalmanScan, hstep] at hb
    rcases List.mem_cons.mp hb with h | h
    · exact h
    · exact ih _ b h

/-- Claim C8: feeding the Kalman random-walk baseline a constant signal
`x = c` with any `q, r > 0` keeps the estimate exactly at `c`, so
`|b - c|` never increases and stays at `0` (both in the batch filter, which
initialises the baseline to the first sample, and in the streaming
`update_kalman`). -/
theorem kalman_baseline_constant_convergence (q r c : ℝ) (N : ℕ)
    (hq : 0 < q) (hr : 0 < r) :
    (∀ b ∈ kalmanBaseline q r (List.replicate N c), b = c) ∧
    (∀ i : ℕ,
      |(kalmanBaseline q r (List.replicate N c)).getD (i + 1) c - c| ≤
        |(kalmanBaseline q r (List.replicate N c)).getD i c - c|) ∧
    (update_kalman q r none 1 c).1 = c ∧
    (∀ P : ℝ, (update_kalman q r (some c) P c).1 = c) := by
  have hall : ∀ b ∈ kalmanBaseline q r (List.replicate N c), b = c := by
    cases N with
    | zero => intro b hb; simp [kalmanBaseline] at hb
    | succ k =>
      intro b hb
      rw [List.replicate_succ, kalmanBaseline] at hb
      rcases List.mem_cons.mp hb with h | h
      · exact h
      · exact kalmanScan_const q r c k 1 b h
  have hD : ∀ i : ℕ, (kalmanBaseline q r (List.replicate N c)).getD i c = c := by
    intro i
    by_cases hk : i < (kalmanBaseline q r (List.replicate N c)).length
    · rw [List.getD_eq_getElem _ _ hk]
      exact hall _ (List.getElem_mem hk)
    · rw [List.getD_eq_default _ _ (by omega)]
  refine ⟨hall, fun i => ?_, by simp [update_kalman], fun P => ?_⟩
  · rw [hD i, hD (i + 1)]
  · simp [update_kalman, kalmanStep]

/-- Witness for C8 at `q = r = 1`, `c = 5`, three samples. -/
theorem kalman_baseline_constant_convergence_witness :
    (∀ b ∈ kalmanBaseline 1 1 (List.replicate 3 5), b = (5 : ℝ)) ∧
    (∀ i : ℕ,
      |(kalmanBaseline 1 1 (List.replicate 3 5)).getD (i + 1) 5 - 5| ≤
        |(kalmanBaseline 1 1 (List.replicate 3 5)).getD i 5 - 5|) ∧
    (update_kalman 1 1 none 1 5).1 = (5 : ℝ) ∧
    (∀ P : ℝ, (update_kalman 1 1 (some 5) P 5).1 = (5 : ℝ)) :=
  kalman_baseline_constant_convergence 1 1 5 3 (by norm_num) (by norm_num)

/-! ## C9: every normalization division is epsilon-floored -/

/-- Claim C9: each normalization denominator of the detectors — the matched
filter's correlation-energy denominator (batch and stream), the batch MAD
denominator, the streaming robust-MAD denominator, the Monte-Carlo
detector's scale and matched-filter denominators, and the template-norm
denominator — is strictly positive for every input, so no division by zero
can occur and no error is raised; a degenerate input at worst produces no
detection. -/
theorem normalization_denominators_positive :
    (∀ e n2 : ℝ, 0 < corr_denom e n2) ∧
    (∀ l : List ℝ, 0 < 1.4826 * mad_denom l) ∧
    (∀ mad : ℝ, 0 < z_denom_stream mad) ∧
    (∀ s : ℝ, 0 < scale_denom s) ∧
    (∀ v : ℝ, 0 < rho_denom v) ∧
    (∀ l : List ℝ, 0 < max (l2norm l) 1e-9) := by
  refine ⟨fun e n2 => ?_, fun l => ?_, fun mad => ?_, fun s => ?_,
    fun v => ?_, fun l => ?_⟩
  · have h : (0 : ℝ) < max (e * n2) 1e-12 :=
      lt_max_of_lt_right (by norm_num)
    exact Real.sqrt_pos.mpr h
  · have := mad_denom_pos l
    nlinarith
  · have h : (0 : ℝ) < max mad 1e-9 := lt_max_of_lt_right (by norm_num)
    unfold z_denom_stream
    nlinarith
  · exact lt_max_of_lt_right (by norm_num)
  · exact Real.sqrt_pos.mpr (lt_max_of_lt_right (by norm_num))
  · exact lt_max_of_lt_right (by norm_num)

/-! ## C7: the sweep does not isolate trial failures (corrected) -/

/-- Counterexample to claim C7: with a first trial that fails, the sweep
loop of `evaluate_detector` returns the failure itself — nothing is counted
or reported and the remaining trial never contributes — because the loop
body contains no exception handling. -/
theorem trial_failure_aborts_sweep :
    evaluate_detector_trials cexTrialFun 2 = Except.error "boom" := rfl

theorem sweep_error_absorbs {α : Type} (runTrial : ℕ → Except String α)
    (e : String) :
    ∀ l : List ℕ,
      l.foldl
        (fun acc tr => do
          let rs ← acc
          let r ← runTrial tr
          pure (rs ++ [r]))
        (Except.error e) = Except.error e := by
  intro l
  induction l with
  | nil => rfl
  | cons a t ih => simpa [bind, Except.bind] using ih

/-- Amended C7: the sweep loop propagates the first trial failure — if trial
`i` fails and all earlier trials succeed, `evaluate_detector_trials` returns
that very error, aborting the sweep with the failure neither counted nor
isolated. -/
theorem sweep_propagates_first_trial_failure {α : Type}
    (runTrial : ℕ → Except String α) (n i : ℕ) (e : String) (hi : i < n)
    (he : runTrial i = Except.error e)
    (hok : ∀ j, j < i → ∃ a, runTrial j = Except.ok a) :
    evaluate_detector_trials runTrial n = Except.error e := by
  have hsplit : List.range n = List.range i ++ List.range' i (n - i) := by
    rw [List.range_eq_range', List.range_eq_range']
    calc List.range' 0 n = List.range' 0 ((n - i) + i) := by rw [Nat.sub_add_cancel hi.le]
      _ = List.range' 0 i ++ List.range' (0 + 1 * i) (n - i) :=
          (List.range'_append 0 i (n - i) 1).symm
      _ = List.range' 0 i ++ List.range' i (n - i) := by norm_num
  obtain ⟨k, hk⟩ : ∃ k, n - i = k + 1 := ⟨n - i - 1, by omega⟩
  have hcons : List.range' i (n - i) = i :: List.range' (i + 1) k := by
    rw [hk, List.range'_succ]
  have hfirst : ∀ (l : List ℕ) (rs : List α), (∀ j ∈ l, ∃ a, runTrial j = Except.ok a) →
      ∃ rs' : List α,
        l.foldl
          (fun acc tr => do
            let rs ← acc
            let r ← runTrial tr
            pure (rs ++ [r]))
          (Except.ok rs) = Except.ok rs' := by
    intro l
    induction l with
    | nil => exact fun rs _ => ⟨rs, rfl⟩
    | cons a t ih =>
      intro rs hall
      obtain ⟨v, hv⟩ := hall a (List.mem_cons_self a t)
      have := ih (rs ++ [v]) (fun j hj => hall j (List.mem_cons_of_mem a hj))
      simpa [hv, bind, Except.bind] using this
  obtain ⟨rs', hrs'⟩ := hfirst (List.range i) []
    (fun j hj => hok j (List.mem_range.mp hj))
  unfold evaluate_detector_trials
  rw [hsplit, List.foldl_append, hrs', hcons]
  simp only [List.foldl_cons, bind, Except.bind, he]
  exact sweep_error_absorbs runTrial e _

/-- Witness for the amended C7: a sweep of three trials whose second fails
returns exactly that failure. -/
theorem sweep_propagates_first_trial_failure_witness :
    evaluate_detector_trials cexTrialFun2 3 = Except.error "late" :=
  sweep_propagates_first_trial_failure cexTrialFun2 3 1 "late" (by omega) rfl
    (fun j hj => ⟨7, by
      have : j = 0 := by omega
      subst this
      rfl⟩)

/-! ## C6: greedy matching and aggregated rates -/

theorem matchFold_invariant (dips : List ℚ) (tol : ℚ) (dets : List ℚ) :
    (matchFold dips tol dets).1 = (matchFold dips tol dets).2.length ∧
    (matchFold dips tol dets).2.Nodup ∧
    (∀ j ∈ (matchFold dips tol dets).2, j < dips.length) ∧
    (matchFold dips tol dets).1 ≤ dets.length := by
  have aux : ∀ (l : List ℚ) (acc : ℕ × List ℕ),
      acc.1 = acc.2.length → acc.2.Nodup → (∀ j ∈ acc.2, j < dips.length) →
      (l.foldl (matchStep dips tol) acc).1 =
        (l.foldl (matchStep dips tol) acc).2.length ∧
      (l.foldl (matchStep dips tol) acc).2.Nodup ∧
      (∀ j ∈ (l.foldl (matchStep dips tol) acc).2, j < dips.length) ∧
      (l.foldl (matchStep dips tol) acc).1 ≤ acc.1 + l.length := by
    intro l
    induction l with
    | nil => intro acc h1 h2 h3; exact ⟨h1, h2, h3, by simp⟩
    | cons d rest ih =>
      intro acc h1 h2 h3
      simp only [List.foldl_cons]
      rcases hf : ((List.range dips.length).filter fun j =>
          decide (|dips.getD j 0 - d| ≤ tol)).find? fun j => decide (j ∉ acc.2)
        with _ | j
      · have hstep : matchStep dips tol acc d = acc := by
          simp only [matchStep, hf]
        rw [hstep]
        obtain ⟨a1, a2, a3, a4⟩ := ih acc h1 h2 h3
        refine ⟨a1, a2, a3, ?_⟩
        simp only [List.length_cons]
        omega
      · have hstep : matchStep dips tol acc d = (acc.1 + 1, acc.2 ++ [j]) := by
          simp only [matchStep, hf]
        rw [hstep]
        have hjpred : j ∉ acc.2 := by
          have := List.find?_some hf
          simpa using this
        have hjmem : j < dips.length := by
          have hmem := List.mem_of_find?_eq_some hf
          have hflt := List.mem_filter.mp hmem
          simpa using List.mem_range.mp hflt.1
        have hn : (acc.2 ++ [j]).Nodup := by
          rw [List.nodup_append]
          refine ⟨h2, by simp, ?_⟩
          intro a ha hb
          exact hjpred ((List.mem_singleton.mp hb) ▸ ha)
        obtain ⟨a1, a2, a3, a4⟩ := ih (acc.1 + 1, acc.2 ++ [j])
          (by simp [h1]) hn
          (by
            intro j' hj'
            rcases List.mem_append.mp hj' with h | h
            · exact h3 j' h
            · exact (List.mem_singleton.mp h) ▸ hjmem)
        refine ⟨a1, a2, a3, ?_⟩
        simp only [List.length_cons] at a4 ⊢
        omega
  obtain ⟨a1, a2, a3, a4⟩ := aux dets (0, []) (by simp) (by simp) (by simp)
  exact ⟨a1, a2, a3, by simpa using a4⟩

theorem matchFold_le_dips (dips : List ℚ) (tol : ℚ) (dets : List ℚ) :
    (matchFold dips tol dets).1 ≤ dips.length := by
  obtain ⟨h1, h2, h3, _⟩ := matchFold_invariant dips tol dets
  rw [h1]
  have hsub : (matchFold dips tol dets).2 ⊆ List.range dips.length := by
    intro a ha
    exact List.mem_range.mpr (h3 a ha)
  simpa using (List.subperm_of_subset h2 hsub).length_le

/-- Claim C6: the evaluation harness matches each detection to at most one
true event (first-available greedy matching, each true event matched at most
once), and the counts satisfy `TP + FP = total detections`,
`TP + FN = total true events` per trial and in aggregate; the reported
true-positive rate is `TP / total true events` and the reported false
positives per minute is `total FP / (trials * duration/60)`. -/
theorem harness_matching_and_rates (dips dets : List ℚ) (tol : ℚ)
    (trialData : List (List ℚ × List ℚ)) (duration_s : ℚ) :
    ((matchFold dips tol dets).1 = (matchFold dips tol dets).2.length ∧
      (matchFold dips tol dets).2.Nodup ∧
      (matchFold dips tol dets).1 ≤ dets.length ∧
      (matchFold dips tol dets).1 ≤ dips.length) ∧
    ((trial_counts dips dets tol).tp + (trial_counts dips dets tol).fp =
        (trial_counts dips dets tol).n_detections ∧
      (trial_counts dips dets tol).tp + (trial_counts dips dets tol).fn =
        (trial_counts dips dets tol).n_dips) ∧
    ((aggregate trialData tol).tp + (aggregate trialData tol).fp =
        (aggregate trialData tol).detections ∧
      (aggregate trialData tol).tp + (aggregate trialData tol).fn =
        (aggregate trialData tol).dips) ∧
    (0 < (aggregate trialData tol).dips →
      tprOf (aggregate trialData tol) =
        ((aggregate trialData tol).tp : ℚ) / ((aggregate trialData tol).dips : ℚ)) ∧
    fpmOf (aggregate trialData tol) duration_s =
      ((aggregate trialData tol).fp : ℚ) /
        ((trialData.length : ℚ) * (duration_s / 60)) := by
  have hper : ∀ d1 d2 : List ℚ,
      (trial_counts d1 d2 tol).tp + (trial_counts d1 d2 tol).fp =
        (trial_counts d1 d2 tol).n_detections ∧
      (trial_counts d1 d2 tol).tp + (trial_counts d1 d2 tol).fn =
        (trial_counts d1 d2 tol).n_dips := by
    intro d1 d2
    obtain ⟨_, _, _, h4⟩ := matchFold_invariant d1 tol d2
    have h5 := matchFold_le_dips d1 tol d2
    unfold trial_counts
    constructor <;> simp <;> omega
  have hagg : ∀ td : List (List ℚ × List ℚ),
      (aggregate td tol).tp + (aggregate td tol).fp =
        (aggregate td tol).detections ∧
      (aggregate td tol).tp + (aggregate td tol).fn =
        (aggregate td tol).dips := by
    intro td
    induction td with
    | nil => simp [aggregate]
    | cons p rest ih =>
      obtain ⟨i1, i2⟩ := ih
      obtain ⟨p1, p2⟩ := hper p.1 p.2
      simp only [aggregate, List.map_cons, List.sum_cons] at i1 i2 p1 p2 ⊢
      constructor <;> omega
  refine ⟨?_, hper dips dets, hagg trialData, fun h => ?_, ?_⟩
  · obtain ⟨h1, h2, _, h4⟩ := matchFold_invariant dips tol dets
    exact ⟨h1, h2, h4, matchFold_le_dips dips tol dets⟩
  · unfold tprOf
    rw [if_pos h]
  · rfl

/-- Witness for C6 on two concrete trials (three true events, two matched). -/
theorem harness_matching_and_rates_witness :
    0 < (aggregate [([1, 5], [1, 2]), ([4], [])] (1 / 2)).dips ∧
    tprOf (aggregate [([1, 5], [1, 2]), ([4], [])] (1 / 2)) =
      ((aggregate [([1, 5], [1, 2]), ([4], [])] (1 / 2)).tp : ℚ) /
        ((aggregate [([1, 5], [1, 2]), ([4], [])] (1 / 2)).dips : ℚ) :=
  ⟨by decide,
    (harness_matching_and_rates [1, 5] [1, 2] (1 / 2)
      [([1, 5], [1, 2]), ([4], [])] 120).2.2.2.1 (by decide)⟩

/-! ## C1: the minimum-separation invariant -/

/-- Separation relation between two detection indices: the later one lies at
least `minSep` samples past the earlier one. -/
def sepBy (minSep : ℤ) (a b : ℕ) : Prop := (a : ℤ) + minSep ≤ b

theorem pickStep_cases (minSep : ℤ) (qual : ℕ → Bool) (better : ℕ → ℕ → Bool)
    (st : List ℕ) (i : ℕ) :
    pickStep minSep qual better st i = st ∨
    (pickStep minSep qual better st i = st ++ [i] ∧
      (st = [] ∨ ∃ p, st.getLast? = some p ∧ minSep ≤ (i : ℤ) - p)) ∨
    (pickStep minSep qual better st i = st.dropLast ++ [i] ∧ st ≠ []) := by
  unfold pickStep
  by_cases hq : qual i
  · rcases hlast : st.getLast? with _ | p
    · refine Or.inr (Or.inl ⟨by simp [hq], Or.inl ?_⟩)
      simpa using List.getLast?_eq_none_iff.mp hlast
    · have hne : st ≠ [] := by
        intro h
        subst h
        simp at hlast
      by_cases hsep : minSep ≤ (i : ℤ) - p
      · exact Or.inr (Or.inl ⟨by simp [hq, hsep], Or.inr ⟨p, rfl, hsep⟩⟩)
      · by_cases hb : better i p
        · exact Or.inr (Or.inr ⟨by simp [hq, hsep, hb], hne⟩)
        · exact Or.inl (by simp [hq, hsep, hb])
  · exact Or.inl (by simp [hq])

theorem pickRun_chain (minSep : ℤ) (qual : ℕ → Bool) (better : ℕ → ℕ → Bool) :
    ∀ (l st : List ℕ),
      st.Chain' (sepBy minSep) →
      (∀ a ∈ st, ∀ b ∈ l, a < b) → l.Pairwise (· < ·) →
      (l.foldl (pickStep minSep qual better) st).Chain' (sepBy minSep) := by
  intro l
  induction l with
  | nil => intro st h1 _ _; simpa using h1
  | cons i rest ih =>
    intro st h1 h2 h3
    obtain ⟨hi, hrest⟩ := List.pairwise_cons.mp h3
    simp only [List.foldl_cons]
    have hchain : (pickStep minSep qual better st i).Chain' (sepBy minSep) := by
      rcases pickStep_cases minSep qual better st i with h | ⟨h, hc⟩ | ⟨h, hne⟩
      · rw [h]; exact h1
      · rw [h]
        rcases hc with rfl | ⟨p, hp, hsep⟩
        · simp
        · rw [List.chain'_append]
          refine ⟨h1, by simp, ?_⟩
          intro a ha y hy
          have hap : p = a := by
            rw [hp] at ha
            simpa using ha
          have hyi : i = y := by simpa using hy
          subst hap
          subst hyi
          unfold sepBy
          omega
      · rw [h]
        obtain ⟨p, hp⟩ : ∃ p, st.getLast? = some p := by
          cases hst : st.getLast? with
          | none =>
            exact absurd (by simpa using List.getLast?_eq_none_iff.mp hst) hne
          | some p => exact ⟨p, rfl⟩
        have hdecomp := List.dropLast_append_getLast? p hp
        have hpi : p < i := by
          apply h2 p _ i (List.mem_cons_self i rest)
          rw [← hdecomp]
          simp
        have h1' := h1
        rw [← hdecomp, List.chain'_append] at h1'
        obtain ⟨hd, _, hbound⟩ := h1'
        rw [List.chain'_append]
        refine ⟨hd, by simp, ?_⟩
        intro a ha y hy
        have hyi : i = y := by simpa using hy
        subst hyi
        have := hbound a ha p (by simp)
        unfold sepBy at this ⊢
        omega
    have hcross : ∀ a ∈ pickStep minSep qual better st i, ∀ b ∈ rest, a < b := by
      intro a ha b hb
      rcases pickStep_cases minSep qual better st i with h | ⟨h, _⟩ | ⟨h, _⟩
      · exact h2 a (h ▸ ha) b (List.mem_cons_of_mem i hb)
      · rw [h] at ha
        rcases List.mem_append.mp ha with h' | h'
        · exact h2 a h' b (List.mem_cons_of_mem i hb)
        · exact (List.mem_singleton.mp h') ▸ hi b hb
      · rw [h] at ha
        rcases List.mem_append.mp ha with h' | h'
        · exact h2 a (List.dropLast_subset st h') b (List.mem_cons_of_mem i hb)
        · exact (List.mem_singleton.mp h') ▸ hi b hb
    exact ih _ hchain hcross hrest

theorem groupStep_flatten (a : ℕ) (gs : List (List ℕ)) :
    (groupStep a gs).flatten = a :: gs.flatten := by
  rcases gs with _ | ⟨g, rest⟩
  · rfl
  · rcases g with _ | ⟨b, g'⟩
    · simp [groupStep]
    · unfold groupStep
      by_cases h : b - a ≤ 1 <;> simp [h]

theorem groupRuns_flatten (l : List ℕ) : (groupRuns l).flatten = l := by
  induction l with
  | nil => rfl
  | cons a t ih =>
    show (groupStep a (groupRuns t)).flatten = a :: t
    rw [groupStep_flatten, ih]

theorem groupStep_ne_nil (a : ℕ) (gs : List (List ℕ))
    (h : ∀ g ∈ gs, g ≠ []) : ∀ g ∈ groupStep a gs, g ≠ [] := by
  rcases gs with _ | ⟨g0, rest⟩
  · intro g hg
    simp [groupStep] at hg
    simp [hg]
  · rcases g0 with _ | ⟨b, g'⟩
    · intro g hg
      simp [groupStep] at hg
      rcases hg with rfl | hg
      · simp
      · exact h g (List.mem_cons_of_mem _ hg)
    · intro g hg
      unfold groupStep at hg
      by_cases hba : b - a ≤ 1 <;> simp [hba] at hg
      · rcases hg with rfl | hg
        · simp
        · exact h g (List.mem_cons_of_mem _ hg)
      · rcases hg with rfl | rfl | hg
        · simp
        · simp
        · exact h g (List.mem_cons_of_mem _ hg)

theorem groupRuns_ne_nil (l : List ℕ) : ∀ g ∈ groupRuns l, g ≠ [] := by
  induction l with
  | nil => intro g hg; simp [groupRuns] at hg
  | cons a t ih => exact groupStep_ne_nil a (groupRuns t) ih

theorem clusterRep_mem (z : ℕ → ℝ) :
    ∀ (g : List ℕ), g ≠ [] → clusterRep z g ∈ g := by
  have aux : ∀ (cs : List ℕ) (b : ℕ),
      cs.foldl (fun best j => if z j < z best then j else best) b = b ∨
      cs.foldl (fun best j => if z j < z best then j else best) b ∈ cs := by
    intro cs
    induction cs with
    | nil => intro b; exact Or.inl rfl
    | cons j t ih =>
      intro b
      simp only [List.foldl_cons]
      by_cases h : z j < z b
      · rw [if_pos h]
        rcases ih j with h' | h'
        · refine Or.inr ?_
          rw [h']
          exact List.mem_cons_self j t
        · exact Or.inr (List.mem_cons_of_mem j h')
      · rw [if_neg h]
        rcases ih b with h' | h'
        · exact Or.inl h'
        · exact Or.inr (List.mem_cons_of_mem j h')
  intro g hg
  rcases g with _ | ⟨c, cs⟩
  · exact absurd rfl hg
  · have hrep : clusterRep z (c :: cs) =
        cs.foldl (fun best j => if z j < z best then j else best) c := rfl
    rw [hrep]
    rcases aux cs c with h | h
    · rw [h]
      exact List.mem_cons_self c cs
    · exact List.mem_cons_of_mem c h

theorem pairwise_map_of_mem (f : List ℕ → ℕ) :
    ∀ (gs : List (List ℕ)), gs.flatten.Pairwise (· < ·) →
      (∀ g ∈ gs, f g ∈ g) → (gs.map f).Pairwise (· < ·) := by
  intro gs
  induction gs with
  | nil => intro _ _; simp
  | cons g rest ih =>
    intro hj hf
    rw [List.flatten_cons, List.pairwise_append] at hj
    obtain ⟨_, hrest, hcross⟩ := hj
    rw [List.map_cons, List.pairwise_cons]
    refine ⟨?_, ih hrest fun g' hg' => hf g' (List.mem_cons_of_mem g hg')⟩
    intro b hb
    obtain ⟨g', hg', rfl⟩ := List.mem_map.mp hb
    exact hcross (f g) (hf g (List.mem_cons_self g rest)) (f g')
      (List.mem_flatten.mpr ⟨g', hg', hf g' (List.mem_cons_of_mem g hg')⟩)

theorem smoothed_minima_chain (cfg : SMCfg) (x : List ℚ) :
    (smoothed_minima_method cfg x).Chain' (sepBy (smMinSep cfg)) := by
  unfold smoothed_minima_method smStep
  apply pickRun_chain
  · exact List.chain'_nil
  · intro a ha
    simp at ha
  · exact List.pairwise_lt_range' 1 (x.length - 2)

theorem kalman_matched_bank_chain (cfg : KMBCfg) (x : List ℝ) :
    (kalman_matched_bank_method cfg x).Chain' (sepBy (kmbMinSep cfg)) := by
  simp only [kalman_matched_bank_method]
  apply pickRun_chain
  · exact List.chain'_nil
  · intro a ha
    simp at ha
  · apply pairwise_map_of_mem
    · rw [groupRuns_flatten]
      exact List.Pairwise.filter _ (List.pairwise_lt_range x.length)
    · intro g hg
      exact clusterRep_mem _ g (groupRuns_ne_nil _ g hg)

/-- Relation used while scanning a stream: either the separation constraint
holds or the earlier value is the initial `-1` sentinel. -/
def sepOrInit (minSep a b : ℤ) : Prop := a + minSep ≤ b ∨ a < 0

/-- Separation relation over emitted stream indices. -/
def sepByZ (minSep a b : ℤ) : Prop := a + minSep ≤ b

theorem chain_sepOrInit_to_sepByZ (minSep : ℤ) :
    ∀ E : List ℤ, E.Chain' (sepOrInit minSep) → (∀ e ∈ E, 0 ≤ e) →
      E.Chain' (sepByZ minSep) := by
  intro E
  induction E with
  | nil => intro _ _; simp
  | cons a t ih =>
    intro hc hm
    rcases t with _ | ⟨b, t'⟩
    · simp
    · rw [List.chain'_cons] at hc ⊢
      refine ⟨?_, ih hc.2 fun e he => hm e (List.mem_cons_of_mem a he)⟩
      rcases hc.1 with h | h
      · exact h
      · have := hm a (List.mem_cons_self a _)
        omega

theorem kmbProcess_spec (cfg : KMBCfg) (st : KMBStreamState) (t x : ℝ) :
    ((kmbProcess cfg st t x).2.1 = none ∧
      (kmbProcess cfg st t x).1.last_det_idx = st.last_det_idx ∧
      (kmbProcess cfg st t x).1.sample_idx = st.sample_idx + 1) ∨
    (∃ d : KMBDet, (kmbProcess cfg st t x).2.1 = some d ∧
      d.idx = st.sample_idx + 1 ∧
      (kmbProcess cfg st t x).1.last_det_idx = d.idx ∧
      (kmbProcess cfg st t x).1.sample_idx = st.sample_idx + 1 ∧
      (st.last_det_idx < 0 ∨ kmbMinSep cfg ≤ d.idx - st.last_det_idx)) := by
  simp only [kmbProcess]
  rcases hb : kmbBestAt cfg (st.sample_idx + 1)
      (st.res_buf.set ((st.res_idx + 1) % ((kmbMaxL cfg : ℤ))).toNat
        (x - (update_kalman cfg.kalman_q cfg.kalman_r st.b st.P x).1))
      ((st.res_idx + 1) % ((kmbMaxL cfg : ℤ))) with _ | b0
  · simp [hb]
  · simp only [hb, kmbZOf, Option.map_some']
    split_ifs <;>
      first
        | exact Or.inr ⟨_, by trivial, by trivial, by trivial, by trivial,
            by assumption⟩
        | exact Or.inl ⟨by trivial, by trivial, by trivial⟩

theorem kmbStreamRun_chain_aux (cfg : KMBCfg) :
    ∀ (samples : List (ℝ × ℝ)) (st : KMBStreamState),
      -1 ≤ st.sample_idx →
      (st.last_det_idx ::
          (kmbStreamRun cfg st samples).filterMap fun o =>
            o.1.map fun d => d.idx).Chain' (sepOrInit (kmbMinSep cfg)) ∧
      ∀ e ∈ (kmbStreamRun cfg st samples).filterMap fun o =>
          o.1.map fun d => d.idx, 0 ≤ e := by
  intro samples
  induction samples with
  | nil =>
    intro st _
    refine ⟨by simp [kmbStreamRun], ?_⟩
    intro e he
    simp [kmbStreamRun] at he
  | cons s rest ih =>
    intro st hs
    obtain ⟨t, x⟩ := s
    rw [kmbStreamRun]
    have hs' : -1 ≤ (kmbProcess cfg st t x).1.sample_idx := by
      rcases kmbProcess_spec cfg st t x with ⟨_, _, h3⟩ | ⟨d, _, _, _, h3, _⟩ <;>
        omega
    obtain ⟨ihc, ihm⟩ := ih (kmbProcess cfg st t x).1 hs'
    rcases kmbProcess_spec cfg st t x with ⟨h1, h2, h3⟩ | ⟨d, h1, h2, h3, h4, h5⟩
    · rw [List.filterMap_cons]
      simp only [h1, Option.map_none']
      rw [h2] at ihc
      exact ⟨ihc, ihm⟩
    · rw [List.filterMap_cons]
      simp only [h1, Option.map_some']
      rw [h3] at ihc
      refine ⟨?_, ?_⟩
      · rw [List.chain'_cons]
        refine ⟨?_, h2 ▸ ihc⟩
        unfold sepOrInit
        omega
      · intro e he
        rcases List.mem_cons.mp he with rfl | he
        · omega
        · exact ihm e he

theorem kmb_stream_dets_chain (cfg : KMBCfg) (samples : List (ℝ × ℝ)) :
    (kmbStreamDets cfg samples).Chain' (sepByZ (kmbMinSep cfg)) := by
  obtain ⟨hc, hm⟩ := kmbStreamRun_chain_aux cfg samples (kmbInit cfg) (by norm_num [kmbInit])
  exact chain_sepOrInit_to_sepByZ _ _ (hc.tail) hm

theorem pushTrunc_length_le {α : Type*} (cap : ℕ) (l : List α) (v : α) :
    (pushTrunc cap l v).length ≤ l.length + 1 := by
  simp only [pushTrunc]
  split <;> simp

theorem oldMeasure_state (cfg : OldCfg) (st : OldState) (t x : ℚ) :
    (oldMeasure cfg st t x).1.sample_idx = st.sample_idx + 1 ∧
    (oldMeasure cfg st t x).1.last_old_det = st.last_old_det ∧
    (oldMeasure cfg st t x).1.hist.length ≤ st.hist.length + 1 :=
  ⟨rfl, rfl, pushTrunc_length_le _ _ _⟩

theorem oldMeasure_cand (cfg : OldCfg) (st : OldState) (t x : ℚ)
    (c : ℤ × ℚ × ℚ × ℚ) (h : (oldMeasure cfg st t x).2 = some c)
    (hinv : (st.hist.length : ℤ) ≤ st.sample_idx + 1) :
    0 ≤ c.1 ∧ c.1 ≤ st.sample_idx + 1 := by
  have hlen : (oldMeasure cfg st t x).1.hist.length ≤ st.hist.length + 1 :=
    (oldMeasure_state cfg st t x).2.2
  simp only [oldMeasure] at h hlen
  set hist' := pushTrunc (oldMaxHist cfg) st.hist
    (if 0 < (st.ma_buf.tail ++ [x]).length then
      (st.ma_sum - st.ma_buf.headD 0 + x) / ((st.ma_buf.tail ++ [x]).length : ℚ)
    else x) with hh
  split_ifs at h with h3 h4 h5
  · have hc := (Option.some.inj h).symm
    have hc1 : c.1 = st.sample_idx + 1 -
        ((hist'.length : ℤ) - 1 - (hist'.length / 2 : ℕ)) := by
      rw [hc]
    have hN3 : 3 ≤ hist'.length := h3
    have hdiv : (hist'.length / 2 : ℕ) ≤ hist'.length - 1 := by omega
    have hdiv0 : 0 ≤ ((hist'.length / 2 : ℕ) : ℤ) := by positivity
    rw [hc1]
    constructor <;> push_cast <;> omega

theorem oldStep_spec (cfg : OldCfg) (st : OldState) (t x : ℚ)
    (hinv : (st.hist.length : ℤ) ≤ st.sample_idx + 1) :
    ((oldStep cfg st t x).1.sample_idx = st.sample_idx + 1 ∧
      ((oldStep cfg st t x).1.hist.length : ℤ) ≤
        (oldStep cfg st t x).1.sample_idx + 1) ∧
    (((oldStep cfg st t x).2 = none ∧
        (oldStep cfg st t x).1.last_old_det = st.last_old_det) ∨
      (∃ row : ℤ × ℚ × ℚ, (oldStep cfg st t x).2 = some row ∧
        (oldStep cfg st t x).1.last_old_det = row.1 ∧ 0 ≤ row.1 ∧
        (st.last_old_det < 0 ∨ oldMinSep cfg ≤ row.1 - st.last_old_det))) := by
  obtain ⟨hs1, hs2, hs3⟩ := oldMeasure_state cfg st t x
  have hlen : ((oldMeasure cfg st t x).1.hist.length : ℤ) ≤
      (oldMeasure cfg st t x).1.sample_idx + 1 := by
    rw [hs1]
    omega
  rcases hm : (oldMeasure cfg st t x).2 with _ | c
  · have hstep : oldStep cfg st t x = ((oldMeasure cfg st t x).1, none) := by
      simp only [oldStep, hm]
    rw [hstep]
    exact ⟨⟨hs1, hlen⟩, Or.inl ⟨rfl, hs2⟩⟩
  · obtain ⟨hc0, hc1⟩ := oldMeasure_cand cfg st t x c hm hinv
    by_cases hacc : st.last_old_det < 0 ∨ oldMinSep cfg ≤ c.1 - st.last_old_det
    · have hstep : oldStep cfg st t x =
          ({ (oldMeasure cfg st t x).1 with last_old_det := c.1 },
            some (c.1, c.2.1, c.2.2.1)) := by
        simp only [oldStep, hm, if_pos hacc]
      rw [hstep]
      exact ⟨⟨hs1, hlen⟩, Or.inr ⟨(c.1, c.2.1, c.2.2.1), rfl, rfl, hc0, hacc⟩⟩
    · have hstep : oldStep cfg st t x = ((oldMeasure cfg st t x).1, none) := by
        simp only [oldStep, hm, if_neg hacc]
      rw [hstep]
      exact ⟨⟨hs1, hlen⟩, Or.inl ⟨rfl, hs2⟩⟩

theorem oldRun_chain_aux (cfg : OldCfg) :
    ∀ (samples : List (ℚ × ℚ)) (st : OldState),
      (st.hist.length : ℤ) ≤ st.sample_idx + 1 →
      (st.last_old_det ::
          (oldRun cfg st samples).map fun r => r.1).Chain'
        (sepOrInit (oldMinSep cfg)) ∧
      ∀ e ∈ (oldRun cfg st samples).map fun r => r.1, 0 ≤ e := by
  intro samples
  induction samples with
  | nil =>
    intro st _
    refine ⟨by simp [oldRun], ?_⟩
    intro e he
    simp [oldRun] at he
  | cons s rest ih =>
    intro st hs
    obtain ⟨t, x⟩ := s
    rw [oldRun]
    obtain ⟨⟨hs1, hs2⟩, hdet⟩ := oldStep_spec cfg st t x hs
    obtain ⟨ihc, ihm⟩ := ih (oldStep cfg st t x).1 hs2
    rcases hdet with ⟨h1, h2⟩ | ⟨row, h1, h2, h3, h4⟩
    · simp only [h1, List.nil_append]
      rw [h2] at ihc
      exact ⟨ihc, ihm⟩
    · simp only [h1, List.singleton_append, List.map_cons]
      rw [h2] at ihc
      refine ⟨?_, ?_⟩
      · rw [List.chain'_cons]
        refine ⟨?_, ihc⟩
        unfold sepOrInit
        rcases h4 with h | h
        · exact Or.inr h
        · exact Or.inl (by omega)
      · intro e he
        rcases List.mem_cons.mp he with rfl | he
        · exact h3
        · exact ihm e he

theorem old_stream_dets_chain (cfg : OldCfg) (samples : List (ℚ × ℚ)) :
    ((run_streaming_old cfg samples).map fun r => r.1).Chain'
      (sepByZ (oldMinSep cfg)) := by
  obtain ⟨hc, hm⟩ := oldRun_chain_aux cfg samples (oldInit cfg)
    (by simp [oldInit])
  exact chain_sepOrInit_to_sepByZ _ _ hc.tail hm

/-- Claim C1: for every input series and configuration, any two adjacent
accepted detections `i < j` of either detector — smoothed-minima or
Kalman/matched-filter-bank, in batch or streaming form — satisfy
`j - i ≥ min_separation_samples`, including after the within-window
replacement steps that overwrite the last accepted detection. -/
theorem min_separation_invariant (cfg : SMCfg) (x : List ℚ) (kcfg : KMBCfg)
    (xr : List ℝ) (samples : List (ℝ × ℝ)) (ocfg : OldCfg)
    (osamples : List (ℚ × ℚ)) :
    (smoothed_minima_method cfg x).Chain' (sepBy (smMinSep cfg)) ∧
    (kalman_matched_bank_method kcfg xr).Chain' (sepBy (kmbMinSep kcfg)) ∧
    (kmbStreamDets kcfg samples).Chain' (sepByZ (kmbMinSep kcfg)) ∧
    ((run_streaming_old ocfg osamples).map fun r => r.1).Chain'
      (sepByZ (oldMinSep ocfg)) :=
  ⟨smoothed_minima_chain cfg x, kalman_matched_bank_chain kcfg xr,
    kmb_stream_dets_chain kcfg samples, old_stream_dets_chain ocfg osamples⟩

/-! ## C5: within-window replacement (batch replaces, stream drops) -/

unseal Rat.add Rat.mul Rat.sub Rat.inv in
/-- Counterexample to claim C5 as stated for the streaming form: on
`oldSamplesCex` the streaming old method keeps only the first, shallower
detection (candidate 1, depth 100) and drops the deeper candidate 4
(depth 300) that arrives within the separation window, whereas the
replacement semantics asserted by the specification would end with
candidate 4 alone. -/
theorem streaming_smoothed_minima_drops_deeper_candidate :
    run_streaming_old oldCfg2Hz oldSamplesCex = [(1, 1 / 2, 1900)] ∧
    run_streaming_old_replacing oldCfg2Hz oldSamplesCex = [(4, 2, 1700)] ∧
    run_streaming_old oldCfg2Hz oldSamplesCex ≠
      run_streaming_old_replacing oldCfg2Hz oldSamplesCex :=
  ⟨by decide, by decide, by decide⟩

/-- Amended C5: in the batch smoothed-minima detector a qualifying candidate
arriving within `min_separation_samples` of the previously accepted
detection and having strictly greater prominence replaces it (deeper dip
wins); the streaming form instead drops every within-window candidate,
whatever its prominence. -/
theorem smoothed_minima_replacement_semantics :
    (∀ (cfg : SMCfg) (x : List ℚ) (st : List ℕ) (i p : ℕ),
      smQual cfg x (smoothSeries cfg x) i = true →
      st.getLast? = some p →
      ¬ smMinSep cfg ≤ (i : ℤ) - p →
      smDepth cfg x.length (smoothSeries cfg x) p <
        smDepth cfg x.length (smoothSeries cfg x) i →
      smStep cfg x (smoothSeries cfg x) st i = st.dropLast ++ [i]) ∧
    (∀ (ocfg : OldCfg) (ost : OldState) (t xv : ℚ) (c : ℤ × ℚ × ℚ × ℚ),
      (oldMeasure ocfg ost t xv).2 = some c →
      ¬ (ost.last_old_det < 0 ∨ oldMinSep ocfg ≤ c.1 - ost.last_old_det) →
      (oldStep ocfg ost t xv).2 = none ∧
      (oldStep ocfg ost t xv).1.last_old_det = ost.last_old_det) := by
  constructor
  · intro cfg x st i p hq hlast hwin hdeep
    unfold smStep pickStep
    rw [hq, hlast]
    simp only [if_true]
    rw [if_neg hwin, if_pos (by simpa using hdeep)]
  · intro ocfg ost t xv c hm hno
    have hstep : oldStep ocfg ost t xv = ((oldMeasure ocfg ost t xv).1, none) := by
      simp only [oldStep, hm, if_neg hno]
    rw [hstep]
    exact ⟨rfl, (oldMeasure_state ocfg ost t xv).2.1⟩

unseal Rat.add Rat.mul Rat.sub Rat.inv in
/-- Witness for the amended C5: a concrete batch series where candidate 5
(depth 50) replaces the previously accepted candidate 2 (depth 30) inside
the six-sample window, and the concrete streaming state from
`oldSamplesCex` where the deeper candidate 4 is dropped. -/
theorem smoothed_minima_replacement_semantics_witness :
    smStep ⟨1, 1500, 2, 25, 3, 6⟩
      [2000, 2000, 1940, 2000, 2000, 1900, 2000, 2000, 2000, 2000, 2000, 2000]
      (smoothSeries ⟨1, 1500, 2, 25, 3, 6⟩
        [2000, 2000, 1940, 2000, 2000, 1900, 2000, 2000, 2000, 2000, 2000, 2000])
      [2] 5 = [5] ∧
    (oldStep oldCfg2Hz
        ⟨[0], 0, [2000, 1900, 2000, 2000, 1700, 2000, 2000], 6, 1⟩
        (7 / 2) 2000).2 = none :=
  ⟨smoothed_minima_replacement_semantics.1 ⟨1, 1500, 2, 25, 3, 6⟩
      [2000, 2000, 1940, 2000, 2000, 1900, 2000, 2000, 2000, 2000, 2000, 2000]
      [2] 5 2 (by decide) (by decide) (by decide) (by decide),
    (smoothed_minima_replacement_semantics.2 oldCfg2Hz
      ⟨[0], 0, [2000, 1900, 2000, 2000, 1700, 2000, 2000], 6, 1⟩
      (7 / 2) 2000 (4, 2, 1700, 300) (by decide) (by decide)).1⟩

/-! ## C10: streaming warm-up invariant -/

theorem linspace_length (a b : ℝ) (n : ℕ) : (linspace a b n).length = n := by
  unfold linspace
  split_ifs with h1 h2
  · simp [h1]
  · simp [h2]
  · rw [List.length_map, List.length_range]

theorem gaussKernelLen_ge_three (fs w : ℝ) : 3 ≤ gaussKernelLen fs w := by
  unfold gaussKernelLen
  dsimp only
  split_ifs with h
  · omega
  · omega

theorem kmbMinL_ge_three (cfg : KMBCfg) (hn : 1 ≤ cfg.n_templates) :
    3 ≤ kmbMinL cfg := by
  have hne : kmbStreamLens cfg ≠ [] := by
    unfold kmbStreamLens templateLens
    intro h
    have := congrArg List.length h
    rw [List.length_map, linspace_length] at this
    simp at this
    omega
  unfold kmbMinL
  rcases hm : (kmbStreamLens cfg).min? with _ | m
  · exact absurd (List.min?_eq_none_iff.mp hm) hne
  · have hmem : m ∈ kmbStreamLens cfg := (List.min?_eq_some_iff'.mp hm).1
    unfold kmbStreamLens templateLens at hmem
    obtain ⟨w, _, rfl⟩ := List.mem_map.mp hmem
    simpa using gaussKernelLen_ge_three cfg.fs w

theorem kmbMinL_le (cfg : KMBCfg) {L : ℕ} (h : L ∈ kmbStreamLens cfg) :
    kmbMinL cfg ≤ L := by
  unfold kmbMinL
  rcases hm : (kmbStreamLens cfg).min? with _ | m
  · rw [List.min?_eq_none_iff.mp hm] at h
    simp at h
  · simpa using (List.min?_eq_some_iff'.mp hm).2 L h

theorem kmbBestAt_warmup (cfg : KMBCfg) (sample' : ℤ) (buf : List ℝ)
    (ridx : ℤ) (h : sample' < (kmbMinL cfg : ℤ) - 1) :
    kmbBestAt cfg sample' buf ridx = none := by
  unfold kmbBestAt
  have aux : ∀ (l : List (ℕ × List ℝ × ℕ)),
      (∀ kv ∈ l, sample' < ((kv.2.2 : ℕ) : ℤ) - 1) →
      l.foldl
        (fun acc kv =>
          if sample' < ((kv.2.2 : ℕ) : ℤ) - 1 then acc
          else
            let win := kmbWindow buf ridx kv.2.2 (kmbMaxL cfg)
            let corr := dotR win kv.2.1.reverse /
              corr_denom (dotR win win) (l2norm kv.2.1 ^ 2)
            match acc with
            | none => some (kv.1, corr)
            | some b0 => if corr < b0.2 then some (kv.1, corr) else acc)
        none = none := by
    intro l
    induction l with
    | nil => intro _; rfl
    | cons kv rest ih =>
      intro hall
      simp only [List.foldl_cons, if_pos (hall kv (List.mem_cons_self kv rest))]
      exact ih fun kv' h' => hall kv' (List.mem_cons_of_mem kv h')
  apply aux
  intro kv hkv
  have hL : kv.2.2 ∈ kmbStreamLens cfg := by
    rw [List.enum_eq_zip_range] at hkv
    obtain ⟨k, p⟩ := kv
    have hzip := (List.of_mem_zip hkv).2
    obtain ⟨hh, LL⟩ := p
    exact (List.of_mem_zip hzip).2
  have := kmbMinL_le cfg hL
  omega

theorem kmbProcess_warmup (cfg : KMBCfg) (st : KMBStreamState) (t x : ℝ)
    (h : st.sample_idx + 1 < (kmbMinL cfg : ℤ) - 1) :
    (kmbProcess cfg st t x).2.1 = none ∧
    (kmbProcess cfg st t x).2.2 = none ∧
    (kmbProcess cfg st t x).1.sample_idx = st.sample_idx + 1 := by
  have hb := kmbBestAt_warmup cfg (st.sample_idx + 1)
    (st.res_buf.set ((st.res_idx + 1) % ((kmbMaxL cfg : ℤ))).toNat
      (x - (update_kalman cfg.kalman_q cfg.kalman_r st.b st.P x).1))
    ((st.res_idx + 1) % ((kmbMaxL cfg : ℤ))) h
  simp only [kmbProcess, hb, kmbZOf, Option.map_none']
  exact ⟨by trivial, by trivial, by trivial⟩

theorem kmbStreamRun_warmup (cfg : KMBCfg) :
    ∀ (xs : List (ℝ × ℝ)) (st : KMBStreamState) (i : ℕ),
      st.sample_idx + (i : ℤ) + 1 < (kmbMinL cfg : ℤ) - 1 →
      (kmbStreamRun cfg st xs).getD i (none, none) = (none, none) := by
  intro xs
  induction xs with
  | nil => intro st i _; simp [kmbStreamRun]
  | cons s rest ih =>
    intro st i h
    obtain ⟨t, x⟩ := s
    rw [kmbStreamRun]
    cases i with
    | zero =>
      obtain ⟨h1, h2, _⟩ := kmbProcess_warmup cfg st t x (by push_cast at h; omega)
      simp [h1, h2]
    | succ j =>
      obtain ⟨_, _, h3⟩ := kmbProcess_warmup cfg st t x (by push_cast at h; omega)
      have := ih (kmbProcess cfg st t x).1 j (by rw [h3]; push_cast at h ⊢; omega)
      simpa using this

/-- Claim C10: warm-up of the streaming Kalman/matched-filter-bank detector.
The first residual pushed into the buffer is exactly `0` (the baseline is
initialised to the first sample, so the buffer is still all zeros after the
first call), and for every sample index strictly below `minL - 1` — `minL`
the shortest template length, itself at least 3 — the best correlation is
NaN (hence so is the z-score, which is `kmbZOf` of it) and the detector
returns no detection. -/
theorem streaming_warmup_invariant (cfg : KMBCfg) (hn : 1 ≤ cfg.n_templates) :
    3 ≤ kmbMinL cfg ∧
    (∀ x : ℝ, kmbResidual cfg (kmbInit cfg) x = 0) ∧
    (∀ t x : ℝ, (kmbProcess cfg (kmbInit cfg) t x).1.res_buf =
      List.replicate (kmbMaxL cfg) 0) ∧
    (∀ med mad : ℝ, kmbZOf none med mad = none) ∧
    (∀ (xs : List (ℝ × ℝ)) (i : ℕ), (i : ℤ) < (kmbMinL cfg : ℤ) - 1 →
      (kmbStreamRun cfg (kmbInit cfg) xs).getD i (none, none) = (none, none)) := by
  refine ⟨kmbMinL_ge_three cfg hn, fun x => ?_, fun t x => ?_, fun med mad => rfl,
    fun xs i h => ?_⟩
  · simp [kmbResidual, kmbInit, update_kalman]
  · have hres : x - (update_kalman cfg.kalman_q cfg.kalman_r
        (kmbInit cfg).b (kmbInit cfg).P x).1 = 0 := by
      simp [kmbInit, update_kalman]
    simp only [kmbProcess]
    show ((kmbInit cfg).res_buf.set _ _) = _
    rw [hres]
    simp [kmbInit, List.set_replicate_self]
  · exact kmbStreamRun_warmup cfg xs (kmbInit cfg) i
      (by simp only [kmbInit]; omega)

/-- Witness for C10 on the single-template 30 Hz configuration, whose only
template has 15 samples: the first stream sample leaves a zero residual and
produces neither a best correlation nor a detection. -/
theorem streaming_warmup_invariant_witness :
    3 ≤ kmbMinL kmbCfgW ∧
    kmbResidual kmbCfgW (kmbInit kmbCfgW) 1600 = 0 ∧
    (kmbStreamRun kmbCfgW (kmbInit kmbCfgW) [(0, 1600), (1 / 30, 1600)]).getD 0
      (none, none) = (none, none) := by
  have hpr : pyRound ((1 / 2 : ℝ) * 30) = 15 := by
    have h1 : ((1 : ℝ) / 2) * 30 = 15 := by norm_num
    have h2 : (⌊(15 : ℝ)⌋ : ℤ) = 15 := by
      norm_num [Int.floor_eq_iff]
    rw [h1]
    simp only [pyRound]
    rw [h2]
    norm_num
  have hlen : gaussKernelLen 30 (1 / 2) = 15 := by
    unfold gaussKernelLen
    rw [hpr]
    norm_num
    decide
  have hlens : kmbStreamLens kmbCfgW = [15] := by
    show (linspace (1 / 2) (3 / 2) 1).map (gaussKernelLen 30) = [15]
    have hlin : linspace (1 / 2) (3 / 2) 1 = [1 / 2] := by
      unfold linspace
      norm_num
    rw [hlin, List.map_singleton, hlen]
  have hmin : kmbMinL kmbCfgW = 15 := by
    unfold kmbMinL
    rw [hlens]
    decide
  have hthm := streaming_warmup_invariant kmbCfgW (le_refl 1)
  exact ⟨hthm.1, hthm.2.1 1600,
    hthm.2.2.2.2 [(0, 1600), (1 / 30, 1600)] 0 (by rw [hmin]; norm_num)⟩

/-! ## C4: template-bank invariants -/

theorem sum_map_sub_const (l : List ℝ) (m : ℝ) :
    (l.map fun v => v - m).sum = l.sum - l.length * m := by
  induction l with
  | nil => simp
  | cons a t ih => simp [ih]; ring

theorem sum_map_div_const (l : List ℝ) (c : ℝ) :
    (l.map fun v => v / c).sum = l.sum / c := by
  induction l with
  | nil => simp
  | cons a t ih => simp [ih]; ring

theorem sum_sq_nonneg (l : List ℝ) : 0 ≤ (l.map fun v => v ^ 2).sum := by
  apply List.sum_nonneg
  intro x hx
  obtain ⟨v, _, rfl⟩ := List.mem_map.mp hx
  exact sq_nonneg v

theorem sum_map_div_sq (l : List ℝ) (c : ℝ) :
    ((l.map fun v => v / c).map fun v => v ^ 2).sum
      = ((l.map fun v => v ^ 2).sum) / c ^ 2 := by
  rw [List.map_map]
  have h : ((fun v : ℝ => v ^ 2) ∘ fun v => v / c) = fun v => v ^ 2 / c ^ 2 := by
    funext v; simp [div_pow]
  rw [h, ← sum_map_div_const (l.map fun v => v ^ 2) (c ^ 2)]
  rw [List.map_map]
  rfl

theorem gaussCentered_length (L : ℕ) : (gaussCentered L).length = L := by
  unfold gaussCentered gaussPulse
  simp

theorem gaussCentered_sum (L : ℕ) (hL : 1 ≤ L) : (gaussCentered L).sum = 0 := by
  unfold gaussCentered
  rw [sum_map_sub_const]
  have hlen : (gaussPulse L).length = L := by unfold gaussPulse; simp
  rw [hlen]
  have hL0 : (L : ℝ) ≠ 0 := Nat.cast_ne_zero.mpr (by omega)
  field_simp

/-- For `L ≥ 3` the Gaussian pulse differs by at least `5/24` between its
central sample (within half a sample of the true centre, hence at least
`exp(-1/8) ≥ 7/8`) and its first sample (at least one `sigma` away, hence at
most `exp(-1/2) ≤ 2/3`). -/
theorem gaussAt_gap (L : ℕ) (hL : 3 ≤ L) :
    5 / 24 ≤ gaussAt L ((L - 1) / 2) - gaussAt L 0 := by
  have hσ1 : (1 : ℝ) ≤ gaussSigma L := le_max_left _ _
  have hL3 : (3 : ℝ) ≤ (L : ℝ) := by exact_mod_cast hL
  have hσle : gaussSigma L ≤ ((L : ℝ) - 1) / 2 := by
    unfold gaussSigma
    apply max_le
    · linarith
    · linarith
  set a : ℕ := (L - 1) / 2 with haa
  have hab1 : 2 * a ≤ L - 1 := by omega
  have hab2 : L - 1 ≤ 2 * a + 1 := by omega
  have hcast : ((L - 1 : ℕ) : ℝ) = (L : ℝ) - 1 := by
    have h1 : 1 ≤ L := by omega
    push_cast [Nat.cast_sub h1]
    ring
  have hr1 : 2 * (a : ℝ) ≤ (L : ℝ) - 1 := by
    have := (Nat.cast_le (α := ℝ)).mpr hab1
    push_cast at this
    linarith [hcast ▸ this]
  have hr2 : (L : ℝ) - 1 ≤ 2 * (a : ℝ) + 1 := by
    have := (Nat.cast_le (α := ℝ)).mpr hab2
    push_cast at this
    linarith [hcast ▸ this]
  have hδ : ((a : ℝ) - ((L : ℝ) - 1) / 2) ^ 2 ≤ (1 / 2) ^ 2 := by
    nlinarith
  have hσpos : (0 : ℝ) < gaussSigma L := by linarith
  have hea : -(1/8 : ℝ)
      ≤ -(1 / 2) * ((((a : ℝ) - ((L : ℝ) - 1) / 2) / gaussSigma L) ^ 2) := by
    rw [div_pow]
    have hq : (((a : ℝ) - ((L : ℝ) - 1) / 2) ^ 2) / (gaussSigma L ^ 2) ≤ 1 / 4 := by
      have h2 : (1 : ℝ) ≤ gaussSigma L ^ 2 := by nlinarith
      calc (((a : ℝ) - ((L : ℝ) - 1) / 2) ^ 2) / (gaussSigma L ^ 2)
          ≤ ((a : ℝ) - ((L : ℝ) - 1) / 2) ^ 2 := div_le_self (sq_nonneg _) h2
        _ ≤ 1 / 4 := by nlinarith
    linarith
  have he0 : -(1 / 2) * ((((0 : ℕ) : ℝ) - ((L : ℝ) - 1) / 2) / gaussSigma L) ^ 2
      ≤ -(1/2 : ℝ) := by
    rw [div_pow]
    have h2 : (1 : ℝ) ≤ ((((0 : ℕ) : ℝ) - ((L : ℝ) - 1) / 2) ^ 2) / (gaussSigma L ^ 2) := by
      rw [one_le_div (by positivity)]
      have h0 : (((0 : ℕ) : ℝ) - ((L : ℝ) - 1) / 2) ^ 2 = (((L : ℝ) - 1) / 2) ^ 2 := by
        push_cast; ring
      rw [h0]
      nlinarith
    nlinarith
  have h1 : Real.exp (-(1/8 : ℝ)) ≤ gaussAt L a := by
    unfold gaussAt
    exact Real.exp_le_exp.mpr hea
  have h2 : (7/8 : ℝ) ≤ Real.exp (-(1/8 : ℝ)) := by
    have := Real.add_one_le_exp (-(1/8 : ℝ))
    linarith
  have h3 : gaussAt L 0 ≤ Real.exp (-(1/2 : ℝ)) := by
    unfold gaussAt
    exact Real.exp_le_exp.mpr he0
  have h4 : Real.exp (-(1/2 : ℝ)) ≤ 2/3 := by
    rw [Real.exp_neg]
    have h5 : (3/2 : ℝ) ≤ Real.exp (1/2 : ℝ) := by
      have := Real.add_one_le_exp (1/2 : ℝ)
      linarith
    rw [inv_le_comm₀ (Real.exp_pos _) (by norm_num)]
    linarith
  linarith

theorem list_range_map_sum (n : ℕ) (f : ℕ → ℝ) :
    ((List.range n).map f).sum = ∑ i in Finset.range n, f i := rfl

/-- Two well-separated entries of the centered pulse already contribute
`(5/24)^2 / 2` to the squared norm, so the norm cannot collapse. -/
theorem gaussCentered_normsq_lower (L : ℕ) (hL : 3 ≤ L) :
    25 / 1152 ≤ ((gaussCentered L).map fun v => v ^ 2).sum := by
  have hmm : gaussCentered L
      = (List.range L).map fun i => -gaussAt L i - (gaussPulse L).sum / L := by
    unfold gaussCentered gaussPulse
    rw [List.map_map]
    rfl
  set m : ℝ := (gaussPulse L).sum / L with hm
  set c : ℕ → ℝ := fun i => -gaussAt L i - m with hc
  have hS : ((gaussCentered L).map fun v => v ^ 2).sum
      = ∑ i in Finset.range L, (c i) ^ 2 := by
    rw [hmm, List.map_map]
    exact list_range_map_sum L fun i => (c i) ^ 2
  rw [hS]
  clear_value m c
  set a : ℕ := (L - 1) / 2 with haa
  have ha1 : 1 ≤ a := by omega
  have haL : a < L := by omega
  have hane : a ≠ 0 := by omega
  have hsub : ({0, a} : Finset ℕ) ⊆ Finset.range L := by
    intro i hi
    simp only [Finset.mem_insert, Finset.mem_singleton] at hi
    rcases hi with rfl | rfl
    · simp
      omega
    · simpa using haL
  have hnotmem : (0 : ℕ) ∉ ({a} : Finset ℕ) := by simp [Ne.symm hane]
  have hsum2 : ∑ i in ({0, a} : Finset ℕ), (c i) ^ 2 = (c 0) ^ 2 + (c a) ^ 2 := by
    rw [Finset.sum_insert hnotmem, Finset.sum_singleton]
  have hd := gaussAt_gap L hL
  rw [← haa] at hd
  have hca : c 0 - c a = gaussAt L a - gaussAt L 0 := by
    simp only [hc]
    ring
  have hd' : (5 : ℝ) / 24 ≤ c 0 - c a := by rw [hca]; exact hd
  have h3 : ((5 : ℝ) / 24) ^ 2 ≤ (c 0 - c a) ^ 2 :=
    pow_le_pow_left₀ (by norm_num) hd' 2
  have h2 : (25 : ℝ) / 1152 ≤ (c 0) ^ 2 + (c a) ^ 2 := by
    nlinarith [h3, sq_nonneg (c 0 + c a)]
  calc (25 : ℝ) / 1152 ≤ (c 0) ^ 2 + (c a) ^ 2 := h2
    _ = ∑ i in ({0, a} : Finset ℕ), (c i) ^ 2 := hsum2.symm
    _ ≤ ∑ i in Finset.range L, (c i) ^ 2 :=
        Finset.sum_le_sum_of_subset_of_nonneg hsub (fun i _ _ => sq_nonneg _)

/-- The norm of the centered pulse clears the `1e-9` floor, so the final
division really is by the norm. -/
theorem gaussNorm_gt (L : ℕ) (hL : 3 ≤ L) : 1e-9 < l2norm (gaussCentered L) := by
  unfold l2norm
  have h := gaussCentered_normsq_lower L hL
  show (1e-9 : ℝ) < Real.sqrt ((gaussCentered L).map fun v => v ^ 2).sum
  rw [Real.lt_sqrt (by norm_num)]
  nlinarith

/-- Every Gaussian template of admissible length has exactly `L` samples,
exactly zero mean and exactly unit Euclidean norm. -/
theorem gaussTemplate_props (L : ℕ) (hL : 3 ≤ L) :
    (gaussTemplate L).length = L ∧ listMean (gaussTemplate L) = 0 ∧
      l2norm (gaussTemplate L) = 1 := by
  have hnrm := gaussNorm_gt L hL
  have hpos : (0 : ℝ) < l2norm (gaussCentered L) := lt_trans (by norm_num) hnrm
  have hmax : max (l2norm (gaussCentered L)) 1e-9 = l2norm (gaussCentered L) :=
    max_eq_left (le_of_lt hnrm)
  have hlen : (gaussTemplate L).length = L := by
    unfold gaussTemplate
    rw [List.length_map, gaussCentered_length]
  refine ⟨hlen, ?_, ?_⟩
  · unfold listMean gaussTemplate
    rw [sum_map_div_const, gaussCentered_sum L (by omega)]
    simp
  · unfold l2norm gaussTemplate
    rw [sum_map_div_sq, hmax]
    have hSnn := sum_sq_nonneg (gaussCentered L)
    have hsq : l2norm (gaussCentered L) ^ 2
        = ((gaussCentered L).map fun v => v ^ 2).sum := by
      unfold l2norm
      exact Real.sq_sqrt hSnn
    rw [hsq]
    rw [div_self (by nlinarith [gaussCentered_normsq_lower L hL])]
    exact Real.sqrt_one

/-- C4: every template produced by `_make_templates` (both scripts) has at
least 3 samples, mean within `1e-9` of zero and Euclidean norm within `1e-6`
of one — in this exact-arithmetic model the mean is exactly 0 and the norm
exactly 1, because the centered pulse's norm provably exceeds the `1e-9`
denominator floor. -/
theorem template_invariants (fs min_w_s max_w_s : ℝ) (n : ℕ) :
    ∀ t ∈ templateBank fs min_w_s max_w_s n,
      3 ≤ t.length ∧ |listMean t| < 1e-9 ∧ |l2norm t - 1| < 1e-6 := by
  intro t ht
  obtain ⟨w, _, rfl⟩ := List.mem_map.mp ht
  obtain ⟨hlen, hmean, hnorm⟩ :=
    gaussTemplate_props _ (gaussKernelLen_ge_three fs w)
  refine ⟨?_, ?_, ?_⟩
  · rw [hlen]
    exact gaussKernelLen_ge_three fs w
  · rw [hmean]
    norm_num
  · rw [hnorm]
    norm_num

/-- Witness for C4: the single template of the one-width bank at 30 Hz is a
member of the bank and satisfies all three invariants. -/
theorem template_invariants_witness :
    3 ≤ (gaussTemplate (gaussKernelLen 30 (1 / 2))).length ∧
    |listMean (gaussTemplate (gaussKernelLen 30 (1 / 2)))| < 1e-9 ∧
    |l2norm (gaussTemplate (gaussKernelLen 30 (1 / 2))) - 1| < 1e-6 := by
  have hlin : linspace (1 / 2) (3 / 2) 1 = [1 / 2] := by
    unfold linspace
    norm_num
  have hmem : gaussTemplate (gaussKernelLen 30 (1 / 2))
      ∈ templateBank 30 (1 / 2) (3 / 2) 1 := by
    unfold templateBank
    rw [hlin, List.map_singleton]
    exact List.mem_singleton_self _
  exact template_invariants 30 (1 / 2) (3 / 2) 1 _ hmem


/-! ## C2: which detector the sweep driver runs -/

/-- The irrational unit `1/sqrt 3` that the counterexample's correlation
statistic repeatedly takes. -/
noncomputable def rq : ℝ := (Real.sqrt 3)⁻¹

theorem sqrt3_pos : 0 < Real.sqrt 3 := Real.sqrt_pos.mpr (by norm_num)

theorem rq_pos : 0 < rq := inv_pos.mpr sqrt3_pos

theorem rq_le : rq ≤ 3 / 5 := by
  unfold rq
  rw [inv_le_comm₀ sqrt3_pos (by norm_num)]
  have h : (5 / 3 : ℝ) ≤ Real.sqrt 3 := by
    rw [show (5 / 3 : ℝ) = Real.sqrt ((5 / 3) ^ 2) from
      (Real.sqrt_sq (by norm_num)).symm]
    exact Real.sqrt_le_sqrt (by norm_num)
  calc (3 / 5 : ℝ)⁻¹ = 5 / 3 := by norm_num
    _ ≤ Real.sqrt 3 := h

theorem rho_denom_34 : rho_denom (3 / 4 : ℝ) = Real.sqrt 3 / 2 := by
  unfold rho_denom
  rw [max_eq_left (by norm_num)]
  rw [show (3 / 4 : ℝ) = 3 * (1 / 2) ^ 2 by norm_num]
  rw [Real.sqrt_mul (by norm_num), Real.sqrt_sq (by norm_num)]
  ring

theorem rho_q : 1 / 2 / rho_denom (3 / 4 : ℝ) = rq := by
  rw [rho_denom_34]
  unfold rq
  rw [div_div_eq_mul_div, mul_comm]
  field_simp

theorem rho_neg_q : -(1 / 2) / rho_denom (3 / 4 : ℝ) = -rq := by
  rw [neg_div, rho_q]

theorem rho_denom_one : rho_denom (1 : ℝ) = 1 := by
  unfold rho_denom
  rw [max_eq_left (by norm_num)]
  exact Real.sqrt_one

/-- The negative-Hann pulse at `L = 4` is exactly `[0, -3/4, -3/4, 0]`. -/
theorem dipRaw_four : dipRaw 4 = [0, -(3 / 4), -(3 / 4), 0] := by
  have hrange : List.range 4 = [0, 1, 2, 3] := rfl
  unfold dipRaw
  rw [hrange]
  simp only [List.map_cons, List.map_nil, List.cons.injEq, and_true]
  refine ⟨?_, ?_, ?_, ?_⟩
  · rw [show 2 * Real.pi * ((0 : ℕ) : ℝ) / (((4 : ℕ) : ℝ) - 1) = 0 by
      push_cast; ring]
    rw [Real.cos_zero]
    norm_num
  · rw [show 2 * Real.pi * ((1 : ℕ) : ℝ) / (((4 : ℕ) : ℝ) - 1)
        = Real.pi - Real.pi / 3 by push_cast; ring]
    rw [Real.cos_pi_sub, Real.cos_pi_div_three]
    norm_num
  · rw [show 2 * Real.pi * ((2 : ℕ) : ℝ) / (((4 : ℕ) : ℝ) - 1)
        = 2 * Real.pi - (Real.pi - Real.pi / 3) by push_cast; ring]
    rw [Real.cos_two_pi_sub, Real.cos_pi_sub, Real.cos_pi_div_three]
    norm_num
  · rw [show 2 * Real.pi * ((3 : ℕ) : ℝ) / (((4 : ℕ) : ℝ) - 1)
        = 2 * Real.pi by push_cast; ring]
    rw [Real.cos_two_pi]
    norm_num

theorem dipCentered_four :
    dipCentered 4 = [3 / 8, -(3 / 8), -(3 / 8), 3 / 8] := by
  unfold dipCentered
  rw [dipRaw_four]
  norm_num

theorem dipCentered_four_norm : l2norm (dipCentered 4) = 3 / 4 := by
  rw [dipCentered_four]
  unfold l2norm
  rw [show (([(3 : ℝ) / 8, -(3 / 8), -(3 / 8), 3 / 8]).map fun v => v ^ 2).sum
      = (3 / 4) ^ 2 by norm_num]
  exact Real.sqrt_sq (by norm_num)

/-- The `DipDetector` template at `L = 4` is the exact rational list
`[1/2, -1/2, -1/2, 1/2]`. -/
theorem dipTemplate_four :
    dipTemplate 4 = [1 / 2, -(1 / 2), -(1 / 2), 1 / 2] := by
  unfold dipTemplate
  rw [dipCentered_four_norm, dipCentered_four]
  norm_num

/-- Sample 0 of the counterexample run: the buffer becomes `[0,0,0,1]`,
the detector starts, and `rho = 1/sqrt 3`. -/
theorem dipStep0 :
    dipUpdate ⟨4, 1/50, 1/50, 8/5, 45⟩ ⟨0, 1, [0,0,0,0], 1, 0, false⟩ (50/49)
    = (⟨1/49, 1, [0,0,0,1], 49/50 + 1/50 * rq, 0, true⟩, some rq, false) := by
  simp only [dipUpdate, scale_denom, dotR, dipTemplate_four, List.tail_cons]
  norm_num [List.zipWith]
  rw [rho_q, abs_of_pos rq_pos]
  rw [if_neg (show ¬(rq < -(8 / 5 * (49 / 50 + 1 / 50 * rq))) by
    have := rq_pos; push_neg; nlinarith)]

theorem dipStep1 (r : ℝ) (hr : 0 ≤ r) :
    dipUpdate ⟨4, 1/50, 1/50, 8/5, 45⟩ ⟨1/49, 1, [0,0,0,1], r, 0, true⟩ (51/49)
    = (⟨2/49, 1, [0,0,1,1], (1 - 2e-2) * r, 0, true⟩, some 0, false) := by
  simp only [dipUpdate, scale_denom, dotR, dipTemplate_four, List.tail_cons]
  norm_num [List.zipWith]
  exact hr

/-- Sample 2: `rho = -1/sqrt 3`, well above the adaptive threshold, so no
detection fires. -/
theorem dipStep2 (r : ℝ) (hr : (49 / 50) ^ 3 ≤ r) :
    dipUpdate ⟨4, 1/50, 1/50, 8/5, 45⟩ ⟨2/49, 1, [0,0,1,1], r, 0, true⟩ (52/49)
    = (⟨3/49, 1, [0,1,1,1], (1 - 2e-2) * r + 2e-2 * rq, 0, true⟩,
        some (-rq), false) := by
  simp only [dipUpdate, scale_denom, dotR, dipTemplate_four, List.tail_cons]
  norm_num [List.zipWith]
  rw [rho_neg_q, abs_neg, abs_of_pos rq_pos]
  rw [if_neg (show ¬(-rq < -(8 / 5 * (49 / 50 * r + 1 / 50 * rq))) by
    push_neg
    have h1 := rq_pos
    have h2 := rq_le
    nlinarith)]

theorem dipStep3 (r : ℝ) (hr : 0 ≤ r) :
    dipUpdate ⟨4, 1/50, 1/50, 8/5, 45⟩ ⟨3/49, 1, [0,1,1,1], r, 0, true⟩ (53/49)
    = (⟨4/49, 1, [1,1,1,1], (1 - 2e-2) * r, 0, true⟩, some 0, false) := by
  simp only [dipUpdate, scale_denom, dotR, dipTemplate_four, List.tail_cons]
  norm_num [List.zipWith]
  exact hr

/-- The staircase phase: with `m = n/49` and input `(n+50)/49` the
normalised sample is exactly `1`, the buffer stays `[1,1,1,1]`, `rho = 0`
and `rho_std` decays by `0.98`. -/
theorem dipStepConst (n : ℕ) (r : ℝ) (hr : 0 ≤ r) :
    dipUpdate ⟨4, 1/50, 1/50, 8/5, 45⟩ ⟨(n : ℝ)/49, 1, [1,1,1,1], r, 0, true⟩
      (((n : ℝ) + 50)/49)
    = (⟨((n : ℝ) + 1)/49, 1, [1,1,1,1], (1 - 2e-2) * r, 0, true⟩,
        some 0, false) := by
  simp only [dipUpdate, scale_denom, dotR, dipTemplate_four, List.tail_cons]
  have hxn : ((n : ℝ) + 50)/49 - ((1 - 1/50) * ((n : ℝ)/49)
      + 1/50 * (((n : ℝ) + 50)/49)) = 1 := by ring
  rw [hxn]
  norm_num [List.zipWith]
  rw [if_neg (show ¬(8 / 5 * (49 / 50 * r) < 0) by push_neg; positivity)]
  simp only [Prod.mk.injEq, DipState.mk.injEq]
  norm_num
  ring

theorem dipStep25 (r : ℝ) (hr : 0 ≤ r) :
    dipUpdate ⟨4, 1/50, 1/50, 8/5, 45⟩ ⟨25/49, 1, [1,1,1,1], r, 0, true⟩
      (1525/588)
    = (⟨649/1176, 49/48, [1,1,1,2], (1 - 2e-2) * r + 2e-2 * rq, 0, true⟩,
        some rq, false) := by
  simp only [dipUpdate, scale_denom, dotR, dipTemplate_four, List.tail_cons]
  norm_num [List.zipWith, abs_of_pos, max_eq_left]
  rw [rho_q, abs_of_pos rq_pos]
  rw [if_neg (show ¬(rq < -(8 / 5 * (49 / 50 * r + 1 / 50 * rq))) by
    push_neg
    have h1 := rq_pos
    nlinarith)]

theorem dipStep26 (r : ℝ) (hr : 0 ≤ r) :
    dipUpdate ⟨4, 1/50, 1/50, 8/5, 45⟩ ⟨649/1176, 49/48, [1,1,1,2], r, 0, true⟩
      (75601/28224)
    = (⟨33553/56448, 2401/2304, [1,1,2,2], (1 - 2e-2) * r, 0, true⟩,
        some 0, false) := by
  simp only [dipUpdate, scale_denom, dotR, dipTemplate_four, List.tail_cons]
  norm_num [List.zipWith, abs_of_pos, max_eq_left]
  exact hr

/-- Sample 27: the window `[1,2,2,1]` yields `rho = -1`, below the decayed
threshold `-1.6 * rho_std`, so a detection fires. -/
theorem dipStep27 (r : ℝ) (hlo : 0 ≤ r) (hhi : r ≤ 61/100) :
    dipUpdate ⟨4, 1/50, 1/50, 8/5, 45⟩
      ⟨33553/56448, 2401/2304, [1,1,2,2], r, 0, true⟩ (46789/28224)
    = (⟨7723/12544, 2401/2304, [1,2,2,1], (1 - 2e-2) * r + 2e-2, 45, true⟩,
        some (-1), true) := by
  simp only [dipUpdate, scale_denom, dotR, dipTemplate_four, List.tail_cons]
  norm_num [List.zipWith, abs_of_pos, max_eq_left, rho_denom_one]
  linarith

theorem dipDetectionIndices_cons (cfg : DipCfg) (st : DipState) (i : ℕ)
    (x : ℝ) (rest : List ℝ) (st' : DipState) (p : Option ℝ) (b : Bool)
    (h : dipUpdate cfg st x = (st', p, b)) :
    dipDetectionIndices cfg st i (x :: rest)
      = (if b then [i] else []) ++ dipDetectionIndices cfg st' (i + 1) rest := by
  simp only [dipDetectionIndices, h]

theorem dipRunConst (k : ℕ) (n i : ℕ) (r : ℝ) (hr : 0 ≤ r) (rest : List ℝ) :
    dipDetectionIndices ⟨4, 1/50, 1/50, 8/5, 45⟩
      ⟨(n : ℝ)/49, 1, [1,1,1,1], r, 0, true⟩ i
      (((List.range' n k).map fun j : ℕ => ((j : ℝ) + 50)/49) ++ rest)
    = dipDetectionIndices ⟨4, 1/50, 1/50, 8/5, 45⟩
        ⟨((n : ℝ) + (k : ℝ))/49, 1, [1,1,1,1], (49/50)^k * r, 0, true⟩
        (i + k) rest := by
  induction k generalizing n i r with
  | zero => norm_num
  | succ k ih =>
    rw [List.range'_succ, List.map_cons, List.cons_append]
    rw [dipDetectionIndices_cons _ _ _ _ _ _ _ _ (dipStepConst n r hr)]
    rw [show ((n : ℝ) + 1)/49 = (((n + 1 : ℕ)) : ℝ)/49 by push_cast; ring]
    rw [ih (n + 1) (i + 1) ((1 - 2e-2) * r) (by linarith)]
    rw [show (((n + 1 : ℕ)) : ℝ) + (k : ℝ) = (n : ℝ) + ((k + 1 : ℕ) : ℝ) by
      push_cast; ring]
    rw [show (49/50 : ℝ)^k * ((1 - 2e-2) * r) = (49/50)^(k + 1) * r by ring]
    rw [show i + 1 + k = i + (k + 1) by omega]
    simp

theorem series_decomp :
    tractorOffSeries
      = [50/49, 51/49, 52/49, 53/49]
        ++ (((List.range' 4 21).map fun j : ℕ => ((j : ℝ) + 50)/49)
        ++ [1525/588, 75601/28224, 46789/28224]) := by
  unfold tractorOffSeries
  rw [List.range_eq_range']
  rw [show (25 : ℕ) = 4 + 21 from rfl]
  rw [← List.range'_append 0 4 21 1]
  rw [List.map_append]
  rw [show List.range' 0 4 = [0, 1, 2, 3] from rfl]
  simp only [List.map_cons, List.map_nil]
  norm_num

/-- The full 28-sample counterexample run of the harness detector: exactly
one detection, at sample index 27. -/
theorem dip_run_tractorOff :
    dipDetectionIndices ⟨4, 1/50, 1/50, 8/5, 45⟩ (dipInit 4) 0 tractorOffSeries
      = [27] := by
  have hinit : dipInit 4 = ⟨0, 1, [0, 0, 0, 0], 1, 0, false⟩ := rfl
  rw [hinit, series_decomp]
  simp only [List.cons_append, List.nil_append]
  rw [dipDetectionIndices_cons _ _ _ _ _ _ _ _ dipStep0]
  rw [dipDetectionIndices_cons _ _ _ _ _ _ _ _
    (dipStep1 (49/50 + 1/50 * rq) (by have := rq_pos; linarith))]
  rw [dipDetectionIndices_cons _ _ _ _ _ _ _ _
    (dipStep2 ((1 - 2e-2) * (49/50 + 1/50 * rq)) (by have := rq_pos; nlinarith))]
  rw [dipDetectionIndices_cons _ _ _ _ _ _ _ _
    (dipStep3 ((1 - 2e-2) * ((1 - 2e-2) * (49/50 + 1/50 * rq)) + 2e-2 * rq)
      (by have := rq_pos; nlinarith))]
  norm_num
  have hrun := dipRunConst 21 4 4
    (49 / 50 * (49 / 50 * (49 / 50 * (49 / 50 + 1 / 50 * rq)) + 1 / 50 * rq))
    (by have := rq_pos; nlinarith)
    [1525/588, 75601/28224, 46789/28224]
  norm_num at hrun
  rw [hrun]
  rw [dipDetectionIndices_cons _ _ _ _ _ _ _ _
    (dipStep25 (311973482284542371301330321821976049 / 476837158203125000000000000000000000 *
      (49 / 50 * (49 / 50 * (49 / 50 * (49 / 50 + 1 / 50 * rq)) + 1 / 50 * rq)))
      (by have := rq_pos; nlinarith))]
  rw [dipDetectionIndices_cons _ _ _ _ _ _ _ _
    (dipStep26 ((1 - 2e-2) * (311973482284542371301330321821976049 / 476837158203125000000000000000000000 *
      (49 / 50 * (49 / 50 * (49 / 50 * (49 / 50 + 1 / 50 * rq)) + 1 / 50 * rq))) + 2e-2 * rq)
      (by have := rq_pos; nlinarith))]
  rw [dipDetectionIndices_cons _ _ _ _ _ _ _ _
    (dipStep27 ((1 - 2e-2) * ((1 - 2e-2) * (311973482284542371301330321821976049 / 476837158203125000000000000000000000 *
      (49 / 50 * (49 / 50 * (49 / 50 * (49 / 50 + 1 / 50 * rq)) + 1 / 50 * rq))) + 2e-2 * rq))
      (by have := rq_pos; nlinarith)
      (by have h1 := rq_pos; have h2 := rq_le; nlinarith))]
  norm_num [dipDetectionIndices]

theorem harnessDipCfg_cex :
    harnessDipCfg 30 4 (8/5) = ⟨4, 1/50, 1/50, 8/5, 45⟩ := by
  unfold harnessDipCfg
  have hpr : pyRound ((1.5 : ℝ) * 30) = 45 := by
    rw [show (1.5 : ℝ) * 30 = 45 by norm_num]
    simp only [pyRound]
    rw [show ⌊(45 : ℝ)⌋ = 45 by norm_num [Int.floor_eq_iff]]
    norm_num
  rw [hpr]
  norm_num
  decide

theorem evaluate_trial_indices_cex :
    evaluate_trial_indices 30 4 (8/5) tractorOffSeries = [27] := by
  unfold evaluate_trial_indices
  rw [harnessDipCfg_cex]
  exact dip_run_tractorOff

theorem tractorOffSeries_le : ∀ v ∈ tractorOffSeries, v ≤ (1500 : ℝ) := by
  intro v hv
  unfold tractorOffSeries at hv
  rw [List.mem_append] at hv
  rcases hv with hv | hv
  · obtain ⟨n, hn, rfl⟩ := List.mem_map.mp hv
    rw [List.mem_range] at hn
    have hnr : (n : ℝ) ≤ 24 := by exact_mod_cast Nat.lt_succ_iff.mp hn
    linarith
  · simp only [List.mem_cons, List.mem_singleton] at hv
    rcases hv with rfl | rfl | hv
    · norm_num
    · norm_num
    · rcases hv with rfl | h
      · norm_num
      · simp at h

theorem filter_and_gate (x : List ℝ) (thr : ℝ) (p : ℕ → Bool)
    (h : ∀ v ∈ x, v ≤ thr) :
    (List.range x.length).filter (fun i => p i && decide (thr < x.getD i 0))
      = [] := by
  rw [List.filter_eq_nil_iff]
  intro i hi
  rw [List.mem_range] at hi
  simp only [Bool.and_eq_true, decide_eq_true_eq, not_and]
  intro _
  have hmem : x.getD i 0 ∈ x := by
    rw [List.getD_eq_getElem?_getD, List.getElem?_eq_getElem hi]
    exact List.getElem_mem hi
  exact not_lt.mpr (h _ hmem)

/-- When no sample clears the tractor-on threshold the batch Kalman/matched
bank method has no candidates, hence no detections. -/
theorem kmb_gate (cfg : KMBCfg) (x : List ℝ)
    (h : ∀ v ∈ x, v ≤ cfg.tractor_on_thr) :
    kalman_matched_bank_method cfg x = [] := by
  simp only [kalman_matched_bank_method]
  rw [filter_and_gate x cfg.tractor_on_thr _ h]
  rfl

theorem go_eq (fs : ℝ) (cfg : DipCfg) (st : DipState) (i : ℕ) (xs : List ℝ) :
    evaluate_trial_times.go fs cfg st i xs
      = (dipDetectionIndices cfg st i xs).map fun j => (j : ℝ) * (1 / fs) := by
  induction xs generalizing st i with
  | nil => simp [evaluate_trial_times.go, dipDetectionIndices]
  | cons x rest ih =>
    simp only [evaluate_trial_times.go, dipDetectionIndices]
    rw [ih]
    by_cases hb : (dipUpdate cfg st x).2.2
    · simp [hb]
    · simp [hb]

/-- C2 counterexample: on `tractorOffSeries` the detector the sweep driver
actually runs (`DipDetector` with `fs = 30`, `L = 4`, `thr_k = 1.6`) fires
at sample 27, while the Kalman-baseline matched-filter-bank detector with
the script defaults detects nothing (every sample is below its 1500 psi
tractor-on gate), so the per-trial outputs of the two algorithms differ. -/
theorem sweep_detector_is_not_kalman_bank :
    evaluate_trial_indices 30 4 (8/5) tractorOffSeries = [27] ∧
    kalman_matched_bank_method kmbCfg30 tractorOffSeries = [] ∧
    evaluate_trial_indices 30 4 (8/5) tractorOffSeries
      ≠ kalman_matched_bank_method kmbCfg30 tractorOffSeries := by
  have h1 := evaluate_trial_indices_cex
  have h2 : kalman_matched_bank_method kmbCfg30 tractorOffSeries = [] := by
    apply kmb_gate
    intro v hv
    exact tractorOffSeries_le v hv
  refine ⟨h1, h2, ?_⟩
  rw [h1, h2]
  simp

/-- C2 (amended): the per-trial detection output of the sweep driver's loop
equals the output of the `DipDetector` algorithm (EWMA baseline/scale
normalisation, negative-Hann matched filter, adaptive `rho_std` threshold,
refractory) on the same series and configuration, with each detection index
reported at time `i/fs`. -/
theorem sweep_driver_runs_dip_detector (fs : ℝ) (L : ℕ) (thr_k : ℝ)
    (xs : List ℝ) :
    evaluate_trial_times fs L thr_k xs
      = (evaluate_trial_indices fs L thr_k xs).map fun i => (i : ℝ) * (1 / fs) := by
  unfold evaluate_trial_times evaluate_trial_indices
  exact go_eq fs _ _ 0 xs

end TDA
